import Mathlib

/-!
# Verification of the tailscale-ingress-controller reconciliation core

Shallow embedding of the HTTP and TCP controllers of the
`mewil/tailscale-ingress-controller` repository (files `controller_http.go`
and `controller_tcp.go`), together with theorems settling the frozen claims
about the reconciliation and routing behaviour.

Modelling conventions:
* Go maps are embedded as association lists (`List (String × α)`) with
  map-like operations; Go map iteration happens in list order (the final
  states proved about here do not depend on the iteration order).
* Pointers to `tsnet.Server`, `http.Server` and `tcpproxy.Proxy` objects are
  embedded as handles (natural numbers) into a `Store`: a heap recording,
  per handle, whether the object has been closed and the hostname it was
  created for.  Creating a server allocates a fresh handle; `Close()` sets
  the handle's `closed` flag.  A nil `*http.Server` is `Option.none`; Go's
  nil-pointer dereference panic when calling `Close` on it is embedded as
  `Except.error`.
* External effects are oracles passed as parameters: SRV lookups
  (`net.LookupSRV`) are a function returning either an error or the list of
  answered ports, and listener creation (`tsnet.Server.Listen`/`ListenFunnel`
  plus `LocalClient`) is a boolean oracle per hostname.  Filesystem state
  directory creation (`generateTsDir`) and `kubestore.New` are modelled as
  always succeeding (their failures only skip work and are not the subject
  of any claim); `kubestore` failure in the source is logged and not fatal.
* Go `strconv.Atoi` is embedded without the 64-bit overflow check (all inputs
  considered here are small); `int16(service.Port)` is embedded by an
  explicit two's-complement conversion on naturals.
-/

/-- Heap of server/proxy objects: `next` is the next fresh handle, `closed`
records which handles have been `Close()`d, `label` records the hostname a
handle was created for. -/
structure Store where
  next : Nat
  closed : Nat → Bool
  label : Nat → String

/-- Allocate a fresh, open handle labelled `nm`. -/
def Store.alloc (s : Store) (nm : String) : Store × Nat :=
  ({ next := s.next + 1,
     closed := fun i => if i = s.next then false else s.closed i,
     label := fun i => if i = s.next then nm else s.label i }, s.next)

/-- `Close()` on the object behind handle `i`. -/
def Store.close (s : Store) (i : Nat) : Store :=
  { s with closed := fun j => if j = i then true else s.closed j }

/-- The empty heap. -/
def Store.fresh : Store := ⟨0, fun _ => false, fun _ => ""⟩

/-! ## Association-list embedding of Go maps -/

/-- Go map read `m[k]` (comma-ok form). -/
def mlookup {α : Type} : List (String × α) → String → Option α
  | [], _ => none
  | (k, v) :: rest, key => if k = key then some v else mlookup rest key

/-- Go map write `m[k] = v`. -/
def minsert {α : Type} : List (String × α) → String → α → List (String × α)
  | [], key, v => [(key, v)]
  | (k, w) :: rest, key, v =>
      if k = key then (k, v) :: rest else (k, w) :: minsert rest key v

/-- Go `delete(m, k)`. -/
def merase {α : Type} : List (String × α) → String → List (String × α)
  | [], _ => []
  | (k, v) :: rest, key =>
      if k = key then merase rest key else (k, v) :: merase rest key

/-- The key set of a Go map. -/
def mkeys {α : Type} (l : List (String × α)) : List String := l.map Prod.fst

/-- Update the value stored at `key` in place (no-op when absent);
embeds Go field assignments through a map entry such as
`c.hosts[n].deleted = false`. -/
def mmodify {α : Type} : List (String × α) → String → (α → α) → List (String × α)
  | [], _, _ => []
  | (k, v) :: rest, key, f =>
      if k = key then (k, f v) :: mmodify rest key f
      else (k, v) :: mmodify rest key f

/-! ## Go string primitives -/

/-- Split a character list at the first occurrence of `sep`. -/
def cutList : List Char → Char → Option (List Char × List Char)
  | [], _ => none
  | c :: cs, sep =>
      if c = sep then some ([], cs)
      else (cutList cs sep).map (fun p => (c :: p.1, p.2))

/-- Go `strings.Cut(s, sep)` for a single-character separator (every use in
the source cuts at `"."`, `":"` or `"/"`): returns `(before, after)` when the
separator occurs, `none` otherwise. -/
def goCut (s : String) (sep : Char) : Option (String × String) :=
  (cutList s.data sep).map (fun p => (String.mk p.1, String.mk p.2))

/-- The part of `s` before the first `.` (the whole of `s` when there is
none); this is how the request dispatcher truncates `r.Host`. -/
def beforeDot (s : String) : String :=
  match goCut s '.' with
  | some p => p.1
  | none => s

/-- Go `strings.HasPrefix` (byte prefix; embedded as character-list prefix,
which coincides on UTF-8 text). -/
def goHasPrefix (s pre : String) : Bool :=
  pre.data.isPrefixOf s.data

/-- Go `strings.Contains(s, string(c))` for a one-character needle. -/
def goContains (s : String) (c : Char) : Bool :=
  s.data.contains c

/-- Digits-only string to number, `none` when empty or non-digit. -/
def digitsToNat? (l : List Char) : Option Nat :=
  if l ≠ [] ∧ l.all Char.isDigit then
    some (l.foldl (fun a c => 10 * a + (c.toNat - 48)) 0)
  else none

/-- Go `strconv.Atoi` (optional sign, one or more digits; the 64-bit
overflow failure of the original is not modelled). -/
def goAtoi (s : String) : Option Int :=
  match s.data with
  | [] => none
  | c :: cs =>
      if c = '+' then (digitsToNat? cs).map Int.ofNat
      else if c = '-' then (digitsToNat? cs).map (fun n => -(n : Int))
      else (digitsToNat? (c :: cs)).map Int.ofNat

/-- Go `int16(x)` for a `uint16` SRV port value. -/
def int16OfPort (p : Nat) : Int :=
  let m := p % 65536
  if m < 32768 then (m : Int) else (m : Int) - 65536

/-! ## Kubernetes-facing data (the fields the controllers consume) -/

/-- `networking/v1.PathType`. -/
inductive GoPathType where
  | exact
  | pfx
  | implSpecific
deriving DecidableEq, Repr

/-- `v1.ServiceBackendPort`: `name` is `""` when the port is numeric. -/
structure ServiceBackendPort where
  name : String
  number : Int
deriving DecidableEq, Repr

/-- `v1.IngressServiceBackend`. -/
structure IngressServiceBackend where
  name : String
  port : ServiceBackendPort
deriving DecidableEq, Repr

/-- `v1.HTTPIngressPath`. -/
structure HTTPIngressPath where
  path : String
  pathType : Option GoPathType
  service : IngressServiceBackend
deriving DecidableEq, Repr

/-- `v1.IngressRule` (`http` is the optional `HTTPIngressRuleValue`). -/
structure IngressRule where
  host : String
  http : Option (List HTTPIngressPath)
deriving DecidableEq, Repr

/-- `v1.Ingress`, restricted to the consumed fields.  `labels` is the set of
label keys present on the object; `tls` is the per-`IngressTLS` host lists;
`defaultBackend` only matters by presence. -/
structure Ingress where
  name : String
  namespc : String
  generation : Int
  labels : List String
  ingressClassName : Option String
  tls : List (List String)
  rules : List IngressRule
  defaultBackend : Option IngressServiceBackend
deriving DecidableEq, Repr

def INGRESS_CLASS_NAME : String := "tailscale"

/-! ## HTTP controller data model (`controller_http.go`) -/

/-- `net/url.URL`, restricted to the four fields the controller sets. -/
structure Url where
  scheme : String
  host : String
  path : String
  rawQuery : String
deriving DecidableEq, Repr

/-- `HttpHostPath`: one path rule of a host. -/
structure HttpHostPath where
  value : String
  exact : Bool
  backend : Url
deriving DecidableEq, Repr

/-- `HttpHost`: `tsServer` is a handle into the ts-server store, `httpServer`
is the (initially nil) handle into the http-server store. -/
structure HttpHost where
  tsServer : Nat
  httpServer : Option Nat
  pathPrefixes : List HttpHostPath
  pathMap : List (String × HttpHostPath)
  started : Bool
  deleted : Bool
  useTls : Bool
  useFunnel : Bool
  enableLogging : Bool
  generation : Int

/-- `HttpController` state: hosts map plus the two object heaps. -/
structure HState where
  hosts : List (String × HttpHost)
  ts : Store
  http : Store

/-- SRV oracle: `srv name addr` embeds `net.LookupSRV(name, "tcp", addr)`,
returning the ports of the answers, or an error. -/
def SrvOracle : Type := String → String → Except Unit (List Nat)

/-- `HttpController.getBackendUrl`: exact `pathMap` hit returns the stored
backend URL as is; otherwise the first matching entry of `pathPrefixes`
yields the backend with the path replaced by the request path and the raw
query attached; otherwise an error (`none`). -/
def getBackendUrl (st : HState) (host path rawquery : String) : Option Url :=
  match mlookup st.hosts host with
  | none => none
  | some h =>
      match mlookup h.pathMap path with
      | some e => some e.backend
      | none =>
          match h.pathPrefixes.find? (fun p => goHasPrefix path p.value) with
          | some p =>
              some { scheme := p.backend.scheme, host := p.backend.host,
                     path := path, rawQuery := rawquery }
          | none => none

/-- `appendSorted` (the closure inside `HttpController.update`): insert a
prefix entry in front of the first strictly shorter entry, keeping the list
in descending order of prefix length (the source locates that position with
`sort.Search` over the always-sorted list, which coincides with this linear
insertion). -/
def appendSorted : List HttpHostPath → HttpHostPath → List HttpHostPath
  | [], e => [e]
  | p :: rest, e =>
      if p.value.length < e.value.length then e :: p :: rest
      else p :: appendSorted rest e

/-- `resolveTargetAddress`: a numeric port token is formatted directly; a
named port is resolved by SRV, taking the first answer's port cast through
`int16` (or `0` when the answer list is empty), and failing only when the
lookup itself errors. -/
def resolveTargetAddress (srv : SrvOracle) (targetAddress targetPort : String) :
    Option String :=
  match goAtoi targetPort with
  | some n => some (targetAddress ++ ":" ++ toString n)
  | none =>
      match srv targetPort targetAddress with
      | Except.error _ => none
      | Except.ok addrs =>
          some (targetAddress ++ ":" ++ toString (int16OfPort (addrs.headD 0)))

/-- One iteration of the path loop in `HttpController.update`: the
`pathMap` reset-on-novel-path check, the path-type check, backend
resolution, and insertion into `pathMap` and (for non-exact entries)
`pathPrefixes`. -/
def processPath (srv : SrvOracle) (ns : String) (h : HttpHost)
    (path : HTTPIngressPath) : HttpHost :=
  let h := if (mlookup h.pathMap path.path).isNone then { h with pathMap := [] } else h
  match path.pathType with
  | none => h
  | some pt =>
      let addr? :=
        if path.service.port.name ≠ "" then
          resolveTargetAddress srv
            (path.service.name ++ "." ++ ns ++ ".svc.cluster.local")
            path.service.port.name
        else
          some (path.service.name ++ "." ++ ns ++ ".svc.cluster.local:" ++
                toString path.service.port.number)
      match addr? with
      | none => h
      | some addr =>
          let p : HttpHostPath :=
            { value := path.path, exact := pt = GoPathType.exact,
              backend := { scheme := "http", host := addr, path := "", rawQuery := "" } }
          let h := { h with pathMap := minsert h.pathMap p.value p }
          if !p.exact then { h with pathPrefixes := appendSorted h.pathPrefixes p }
          else h

/-- One iteration of the rule loop in `HttpController.update`: the host
checks, generation-driven re-creation, `deleted = false`, the default-backend
skip, then the path loop. -/
def processRule (srv : SrvOracle) (ing : Ingress) (tlsHosts : List String)
    (useFunnel enableLogging : Bool) (st : HState) (rule : IngressRule) : HState :=
  if rule.host = "" then st
  else if goContains rule.host '*' then st
  else
    match rule.http with
    | none => st
    | some paths =>
        let recreate :=
          match mlookup st.hosts rule.host with
          | none => true
          | some ex => ex.generation < ing.generation
        let st :=
          if recreate then
            let st :=
              match mlookup st.hosts rule.host with
              | some ex =>
                  { st with ts := st.ts.close ex.tsServer,
                            hosts := merase st.hosts rule.host }
              | none => st
            let (ts, tsIdx) := st.ts.alloc rule.host
            let newHost : HttpHost :=
              { tsServer := tsIdx, httpServer := none, pathPrefixes := [],
                pathMap := [], started := false, deleted := false,
                useTls := tlsHosts.contains rule.host, useFunnel := useFunnel,
                enableLogging := enableLogging, generation := ing.generation }
            { st with ts := ts, hosts := minsert st.hosts rule.host newHost }
          else st
        let st := { st with hosts := mmodify st.hosts rule.host (fun h => { h with deleted := false }) }
        if ing.defaultBackend.isSome then st
        else
          { st with hosts := mmodify st.hosts rule.host (fun h => paths.foldl (processPath srv ing.namespc) h) }

/-- One iteration of the ingress loop in `HttpController.update`: the
ingress-class filter, flag/TLS-host derivation, then the rule loop. -/
def processIngress (srv : SrvOracle) (st : HState) (ing : Ingress) : HState :=
  let ingressClassName := ing.ingressClassName.getD ""
  if ingressClassName ≠ INGRESS_CLASS_NAME then st
  else
    let tlsHosts := ing.tls.flatten
    let useFunnel := ing.labels.contains "tailscale.com/funnel"
    let enableLogging := ing.labels.contains "tailscale.com/logging"
    ing.rules.foldl (processRule srv ing tlsHosts useFunnel enableLogging) st

/-- The mark phase: `deleted = true` on every host. -/
def markDeleted : List (String × HttpHost) → List (String × HttpHost)
  | [] => []
  | (k, h) :: rest => (k, { h with deleted := true }) :: markDeleted rest

/-- One iteration of the sweep/start loop in `HttpController.update` for the
host named `n`: a still-deleted host has its http server closed (a Go
nil-pointer panic, `Except.error`, when the host was never started) and its
ts server closed and is removed; a non-started survivor is started when the
listen oracle allows, allocating its http server handle. -/
def sweepStep (listenOk : String → Bool) (st : HState) (n : String) :
    Except Unit HState :=
  match mlookup st.hosts n with
  | none => Except.ok st
  | some h =>
      if h.deleted then
        match h.httpServer with
        | none => Except.error ()
        | some hi =>
            Except.ok { st with http := st.http.close hi,
                                ts := (st.ts.close h.tsServer),
                                hosts := merase st.hosts n }
      else if h.started then Except.ok st
      else if !listenOk n then Except.ok st
      else
        let (httpStore, hIdx) := st.http.alloc n
        Except.ok { st with http := httpStore,
                            hosts := mmodify st.hosts n (fun h => { h with httpServer := some hIdx, started := true }) }

/-- `HttpController.update`: mark, per-ingress processing, then the
sweep/start loop over the (post-processing) host map. -/
def httpUpdate (srv : SrvOracle) (listenOk : String → Bool) (st : HState)
    (ingresses : List Ingress) : Except Unit HState :=
  let st := { st with hosts := markDeleted st.hosts }
  let st := ingresses.foldl (processIngress srv) st
  (mkeys st.hosts).foldlM (sweepStep listenOk) st

/-- The per-request handler installed on every host: truncate `r.Host` at
the first `.`, then dispatch through `getBackendUrl`; `none` is the
`404 Not Found` answer. -/
def handleRequest (st : HState) (reqHost reqPath rawquery : String) : Option Url :=
  getBackendUrl st (beforeDot reqHost) reqPath rawquery

/-! ## TCP controller data model (`controller_tcp.go`) -/

/-- `TcpHost`: handles for the ts server and the `tcpproxy.Proxy`, plus the
change-detection signature. -/
structure TcpHost where
  tsServer : Nat
  proxy : Nat
  signature : String

/-- `TcpController` state: hosts map keyed by the source spec, and the two
object heaps. -/
structure TState where
  hosts : List (String × TcpHost)
  ts : Store
  proxy : Store

/-- `corev1.ConfigMap`, restricted to the consumed fields. -/
structure ConfigMap where
  name : String
  data : List (String × String)

/-- The fully-qualified target address construction of `TcpController.update`:
a `namespace/service` reference becomes `service.namespace.svc.cluster.local`,
a bare reference is used as is. -/
def tcpTargetAddress (targetServiceRef : String) : String :=
  match goCut targetServiceRef '/' with
  | some p => p.2 ++ "." ++ p.1 ++ ".svc.cluster.local"
  | none => targetServiceRef

/-- One iteration of the entry loop in `TcpController.update`: parse the two
specs, record the key as alive, compare signatures (closing, and deleting
under the `tailnetHost` key, on mismatch), then resolve and re-create. -/
def processEntry (srv : SrvOracle) (acc : TState × List String)
    (e : String × String) : TState × List String :=
  let (st, alive) := acc
  match goCut e.1 '.' with
  | none => (st, alive)
  | some (tailnetHost, tailnetPort) =>
      match goCut e.2 ':' with
      | none => (st, alive)
      | some (targetServiceRef, targetPort) =>
          let alive := alive ++ [e.1]
          let sig := e.1 ++ ": " ++ e.2
          let skip :=
            match mlookup st.hosts e.1 with
            | some oldHost => oldHost.signature == sig
            | none => false
          if skip then (st, alive)
          else
            let st :=
              match mlookup st.hosts e.1 with
              | some oldHost =>
                  { st with proxy := st.proxy.close oldHost.proxy,
                            ts := st.ts.close oldHost.tsServer,
                            hosts := merase st.hosts tailnetHost }
              | none => st
            match resolveTargetAddress srv (tcpTargetAddress targetServiceRef) targetPort with
            | none => (st, alive)
            | some _fullTargetAddress =>
                let (ts, tsIdx) := st.ts.alloc tailnetHost
                let (proxyStore, pIdx) := st.proxy.alloc (":" ++ tailnetPort)
                ({ st with ts := ts, proxy := proxyStore,
                           hosts := minsert st.hosts e.1 ⟨tsIdx, pIdx, sig⟩ }, alive)

/-- The sweep at the end of a matching-ConfigMap iteration: every host whose
key is not in `alive` has its proxy and ts server closed and is removed. -/
def tcpSweepStep (alive : List String) (st : TState) (k : String) : TState :=
  if alive.contains k then st
  else
    match mlookup st.hosts k with
    | none => st
    | some h =>
        { st with proxy := st.proxy.close h.proxy,
                  ts := st.ts.close h.tsServer,
                  hosts := merase st.hosts k }

/-- `TcpController.update`: for each delivered ConfigMap whose name matches
the configured one, run the entry loop and then the sweep; other ConfigMaps
are skipped entirely (so a snapshot without the configured ConfigMap leaves
the state untouched). -/
def tcpUpdate (cfgName : String) (srv : SrvOracle) (st : TState)
    (configMaps : List ConfigMap) : TState :=
  configMaps.foldl
    (fun st cm =>
      if cm.name ≠ cfgName then st
      else
        let (st, alive) := cm.data.foldl (processEntry srv) (st, [])
        (mkeys st.hosts).foldl (tcpSweepStep alive) st)
    st

/-! ## Snapshot-derived key sets (the claims' "valid hostnames/keys") -/

/-- A rule the HTTP update acts on: non-empty host, no wildcard, an HTTP
section present. -/
def ruleValid (r : IngressRule) : Bool :=
  r.host ≠ "" && !(goContains r.host '*') && r.http.isSome

/-- The hostnames an ingress contributes: none unless its class matches. -/
def ingressValidHosts (ing : Ingress) : List String :=
  if ing.ingressClassName.getD "" = INGRESS_CLASS_NAME then
    (ing.rules.filter ruleValid).map IngressRule.host
  else []

/-- The distinct-by-role hostnames of an HTTP snapshot. -/
def httpValidHosts (ingresses : List Ingress) : List String :=
  (ingresses.map ingressValidHosts).flatten

/-- A well-formed TCP ConfigMap entry: both separators present. -/
def tcpEntryWf (e : String × String) : Bool :=
  (goCut e.1 '.').isSome && (goCut e.2 ':').isSome

/-- The keys of the well-formed entries of a ConfigMap's data. -/
def tcpValidKeys (data : List (String × String)) : List String :=
  (data.filter tcpEntryWf).map Prod.fst

/-- Whether a well-formed entry's target resolves under the SRV oracle. -/
def tcpEntryResolves (srv : SrvOracle) (e : String × String) : Bool :=
  match goCut e.2 ':' with
  | none => true
  | some (targetServiceRef, targetPort) =>
      (resolveTargetAddress srv (tcpTargetAddress targetServiceRef) targetPort).isSome

/-- An entry whose key ends the pass with a registered host: well-formed,
and either its target resolves (a host is (re)created) or a host already
existed under the key before the pass (unchanged signature: skipped;
changed signature with failed re-resolution: the teardown deletes under the
wrong key, so the closed host stays registered). -/
def tcpEntryKept (srv : SrvOracle) (st : TState) (e : String × String) : Bool :=
  tcpEntryWf e && (tcpEntryResolves srv e || (mlookup st.hosts e.1).isSome)

/-- The keys a TCP pass over `data`, starting from `st`, ends up holding. -/
def tcpKeptKeys (srv : SrvOracle) (st : TState) (data : List (String × String)) :
    List String :=
  (data.filter (tcpEntryKept srv st)).map Prod.fst



/-! ## Association-map lemmas -/

theorem mlookup_minsert_self {α : Type} (l : List (String × α)) (k : String) (v : α) :
    mlookup (minsert l k v) k = some v := by
  induction l with
  | nil => simp [minsert, mlookup]
  | cons e rest ih =>
      obtain ⟨a, b⟩ := e
      by_cases h : a = k
      · simp [minsert, mlookup, h]
      · simp [minsert, mlookup, h, ih]

theorem mlookup_minsert_ne {α : Type} (l : List (String × α)) (k k' : String) (v : α)
    (hne : k ≠ k') : mlookup (minsert l k v) k' = mlookup l k' := by
  induction l with
  | nil => simp [minsert, mlookup, hne]
  | cons e rest ih =>
      obtain ⟨a, b⟩ := e
      by_cases h : a = k
      · subst h; simp [minsert, mlookup, hne]
      · by_cases h' : a = k'
        · simp [minsert, mlookup, h, h', Ne.symm hne]
        · simp [minsert, mlookup, h, h', ih]

theorem mlookup_merase_self {α : Type} (l : List (String × α)) (k : String) :
    mlookup (merase l k) k = none := by
  induction l with
  | nil => simp [merase, mlookup]
  | cons e rest ih =>
      obtain ⟨a, b⟩ := e
      by_cases h : a = k
      · simpa [merase, mlookup, h] using ih
      · simpa [merase, mlookup, h] using ih

theorem mlookup_merase_ne {α : Type} (l : List (String × α)) (k k' : String)
    (hne : k ≠ k') : mlookup (merase l k) k' = mlookup l k' := by
  induction l with
  | nil => simp [merase, mlookup]
  | cons e rest ih =>
      obtain ⟨a, b⟩ := e
      by_cases h : a = k
      · subst h
        simp [merase, mlookup, hne, ih]
      · by_cases h' : a = k'
        · subst h'
          simp [merase, mlookup, h]
        · simp [merase, mlookup, h, h', ih]

theorem mlookup_mmodify_self {α : Type} (l : List (String × α)) (k : String) (f : α → α) :
    mlookup (mmodify l k f) k = (mlookup l k).map f := by
  induction l with
  | nil => simp [mmodify, mlookup]
  | cons e rest ih =>
      obtain ⟨a, b⟩ := e
      by_cases h : a = k
      · simp [mmodify, mlookup, h]
      · simpa [mmodify, mlookup, h] using ih

theorem mlookup_mmodify_ne {α : Type} (l : List (String × α)) (k k' : String) (f : α → α)
    (hne : k ≠ k') : mlookup (mmodify l k f) k' = mlookup l k' := by
  induction l with
  | nil => simp [mmodify, mlookup]
  | cons e rest ih =>
      obtain ⟨a, b⟩ := e
      by_cases h : a = k
      · subst h
        simp [mmodify, mlookup, hne, ih]
      · by_cases h' : a = k'
        · subst h'
          simp [mmodify, mlookup, h]
        · simp [mmodify, mlookup, h, h', ih]

theorem mem_mkeys_iff_isSome {α : Type} (l : List (String × α)) (k : String) :
    k ∈ mkeys l ↔ (mlookup l k).isSome := by
  induction l with
  | nil => simp [mkeys, mlookup]
  | cons e rest ih =>
      obtain ⟨a, b⟩ := e
      by_cases h : a = k
      · simp [mkeys, mlookup, h]
      · simp [mkeys, mlookup, h, ← ih, Ne.symm h]

theorem mkeys_mmodify {α : Type} (l : List (String × α)) (k : String) (f : α → α) :
    mkeys (mmodify l k f) = mkeys l := by
  induction l with
  | nil => simp [mmodify, mkeys]
  | cons e rest ih =>
      obtain ⟨a, b⟩ := e
      by_cases h : a = k
      · simpa [mmodify, mkeys, h] using ih
      · simpa [mmodify, mkeys, h] using ih

theorem mkeys_merase_subset {α : Type} (l : List (String × α)) (k : String) :
    mkeys (merase l k) ⊆ mkeys l := by
  intro x hx
  rw [mem_mkeys_iff_isSome] at hx ⊢
  by_cases hxk : x = k
  · subst hxk; rw [mlookup_merase_self] at hx; simp at hx
  · rwa [mlookup_merase_ne l k x (fun hh => hxk hh.symm)] at hx

theorem mkeys_minsert_subset {α : Type} (l : List (String × α)) (k : String) (v : α) :
    mkeys (minsert l k v) ⊆ k :: mkeys l := by
  intro x hx
  by_cases hxk : x = k
  · subst hxk; exact List.mem_cons_self _ _
  · rw [mem_mkeys_iff_isSome] at hx
    rw [mlookup_minsert_ne l k x v (fun hh => hxk hh.symm)] at hx
    rw [← mem_mkeys_iff_isSome] at hx
    exact List.mem_cons_of_mem _ hx

theorem nodup_mkeys_minsert {α : Type} (l : List (String × α)) (k : String) (v : α)
    (h : (mkeys l).Nodup) : (mkeys (minsert l k v)).Nodup := by
  induction l with
  | nil => simp [minsert, mkeys]
  | cons e rest ih =>
      obtain ⟨a, b⟩ := e
      simp only [mkeys, List.map_cons, List.nodup_cons] at h
      by_cases he : a = k
      · subst he
        have hm : minsert ((a, b) :: rest) a v = (a, v) :: rest := by
          simp [minsert]
        rw [hm]
        simp only [mkeys, List.map_cons, List.nodup_cons]
        exact ⟨h.1, h.2⟩
      · simp only [minsert, if_neg he, mkeys, List.map_cons, List.nodup_cons]
        refine ⟨?_, ih h.2⟩
        intro hmem
        have hx : (mlookup (minsert rest k v) a).isSome := by
          rw [← mem_mkeys_iff_isSome]; exact hmem
        rw [mlookup_minsert_ne rest k a v (fun hh => he hh.symm)] at hx
        rw [← mem_mkeys_iff_isSome] at hx
        exact h.1 hx

theorem nodup_mkeys_merase {α : Type} (l : List (String × α)) (k : String)
    (h : (mkeys l).Nodup) : (mkeys (merase l k)).Nodup := by
  induction l with
  | nil => simp [merase, mkeys]
  | cons e rest ih =>
      obtain ⟨a, b⟩ := e
      simp only [mkeys, List.map_cons, List.nodup_cons] at h
      by_cases he : a = k
      · simpa [merase, he] using ih h.2
      · simp only [merase, if_neg he, mkeys, List.map_cons, List.nodup_cons]
        exact ⟨fun hmem => h.1 (mkeys_merase_subset rest k hmem), ih h.2⟩

theorem nodup_mkeys_mmodify {α : Type} (l : List (String × α)) (k : String) (f : α → α)
    (h : (mkeys l).Nodup) : (mkeys (mmodify l k f)).Nodup := by
  rwa [mkeys_mmodify]

theorem mlookup_markDeleted (l : List (String × HttpHost)) (k : String) :
    mlookup (markDeleted l) k =
      (mlookup l k).map (fun h => { h with deleted := true }) := by
  induction l with
  | nil => simp [markDeleted, mlookup]
  | cons e rest ih =>
      obtain ⟨a, b⟩ := e
      by_cases h : a = k
      · simp [markDeleted, mlookup, h]
      · simpa [markDeleted, mlookup, h] using ih

theorem mkeys_markDeleted (l : List (String × HttpHost)) :
    mkeys (markDeleted l) = mkeys l := by
  induction l with
  | nil => simp [markDeleted, mkeys]
  | cons e rest ih =>
      obtain ⟨a, b⟩ := e
      simpa [markDeleted, mkeys] using ih

/-! ## Store lemmas -/

/-- `s'` extends `s`: no allocated handle is lost and no close is undone. -/
def Store.Mono (s s' : Store) : Prop :=
  s.next ≤ s'.next ∧ ∀ i, i < s.next → s.closed i = true → s'.closed i = true

theorem Store.Mono.refl (s : Store) : Store.Mono s s :=
  ⟨le_refl _, fun _ _ h => h⟩

theorem Store.Mono.trans {s₁ s₂ s₃ : Store} (h₁ : Store.Mono s₁ s₂)
    (h₂ : Store.Mono s₂ s₃) : Store.Mono s₁ s₃ :=
  ⟨le_trans h₁.1 h₂.1, fun i hi hc => h₂.2 i (lt_of_lt_of_le hi h₁.1) (h₁.2 i hi hc)⟩

theorem Store.mono_alloc (s : Store) (nm : String) : Store.Mono s (s.alloc nm).1 := by
  refine ⟨Nat.le_succ _, fun i hi hc => ?_⟩
  simp only [Store.alloc]
  rw [if_neg (Nat.ne_of_lt hi)]
  exact hc

theorem Store.mono_close (s : Store) (i : Nat) : Store.Mono s (s.close i) := by
  refine ⟨le_refl _, fun j hj hc => ?_⟩
  simp only [Store.close]
  by_cases h : j = i
  · simp [h]
  · simpa [h] using hc

theorem Store.close_self (s : Store) (i : Nat) : (s.close i).closed i = true := by
  simp [Store.close]

theorem Store.close_next (s : Store) (i : Nat) : (s.close i).next = s.next := rfl

theorem Store.alloc_next (s : Store) (nm : String) : (s.alloc nm).1.next = s.next + 1 := rfl

theorem Store.alloc_idx (s : Store) (nm : String) : (s.alloc nm).2 = s.next := rfl

theorem Store.alloc_closed_self (s : Store) (nm : String) :
    (s.alloc nm).1.closed (s.alloc nm).2 = false := by
  simp [Store.alloc]

theorem Store.alloc_label_self (s : Store) (nm : String) :
    (s.alloc nm).1.label (s.alloc nm).2 = nm := by
  simp [Store.alloc]

theorem Store.alloc_closed_old (s : Store) (nm : String) (i : Nat) (hi : i < s.next) :
    (s.alloc nm).1.closed i = s.closed i := by
  simp only [Store.alloc]
  rw [if_neg (Nat.ne_of_lt hi)]

/-! ## Well-formedness of controller states -/

/-- All handles stored in the HTTP host map are allocated. -/
def HWF (st : HState) : Prop :=
  ∀ n h, mlookup st.hosts n = some h →
    h.tsServer < st.ts.next ∧ (∀ i, h.httpServer = some i → i < st.http.next)

/-- All handles stored in the TCP host map are allocated. -/
def TWF (st : TState) : Prop :=
  ∀ n h, mlookup st.hosts n = some h →
    h.tsServer < st.ts.next ∧ h.proxy < st.proxy.next

/-! ## Characterisation of the HTTP processing phase -/

theorem processPath_fields (srv : SrvOracle) (ns : String) (h : HttpHost)
    (p : HTTPIngressPath) :
    (processPath srv ns h p).tsServer = h.tsServer ∧
    (processPath srv ns h p).httpServer = h.httpServer ∧
    (processPath srv ns h p).deleted = h.deleted ∧
    (processPath srv ns h p).started = h.started ∧
    (processPath srv ns h p).generation = h.generation := by
  unfold processPath
  by_cases hm : (mlookup h.pathMap p.path).isNone <;>
    cases hpt : p.pathType <;>
    simp only [hm, hpt, if_pos, if_neg, reduceIte] <;>
    (try split) <;>
    (try split) <;>
    simp

theorem pathFold_fields (srv : SrvOracle) (ns : String) (paths : List HTTPIngressPath)
    (h : HttpHost) :
    (paths.foldl (processPath srv ns) h).tsServer = h.tsServer ∧
    (paths.foldl (processPath srv ns) h).httpServer = h.httpServer ∧
    (paths.foldl (processPath srv ns) h).deleted = h.deleted ∧
    (paths.foldl (processPath srv ns) h).started = h.started ∧
    (paths.foldl (processPath srv ns) h).generation = h.generation := by
  induction paths generalizing h with
  | nil => simp
  | cons p rest ih =>
      have hp := processPath_fields srv ns h p
      have hr := ih (processPath srv ns h p)
      simp only [List.foldl_cons]
      exact ⟨hr.1.trans hp.1, hr.2.1.trans hp.2.1, hr.2.2.1.trans hp.2.2.1,
             hr.2.2.2.1.trans hp.2.2.2.1, hr.2.2.2.2.trans hp.2.2.2.2⟩

theorem processRule_invalid (srv : SrvOracle) (ing : Ingress) (tl : List String)
    (uf el : Bool) (st : HState) (r : IngressRule) (hr : ruleValid r = false) :
    processRule srv ing tl uf el st r = st := by
  unfold processRule
  by_cases h1 : r.host = ""
  · simp [h1]
  · by_cases h2 : goContains r.host '*'
    · simp [h1, h2]
    · cases h3 : r.http with
      | none => simp [h1, h2, h3]
      | some paths =>
          exfalso
          simp [ruleValid, h1, h2, h3] at hr

/-- Proof-layer name for the tail of `processRule`: `deleted = false`, the
default-backend skip, and the path loop. -/
def affirmStage (srv : SrvOracle) (ing : Ingress) (paths : List HTTPIngressPath)
    (st : HState) (host : String) : HState :=
  let st2 := { st with hosts := mmodify st.hosts host (fun h => { h with deleted := false }) }
  if ing.defaultBackend.isSome then st2
  else { st2 with hosts := mmodify st2.hosts host (fun h => paths.foldl (processPath srv ing.namespc) h) }

/-- Proof-layer name for the fresh-host construction of `processRule`. -/
def createStage (ing : Ingress) (tl : List String) (uf el : Bool) (st : HState)
    (host : String) : HState :=
  let (ts, tsIdx) := st.ts.alloc host
  let newHost : HttpHost :=
    { tsServer := tsIdx, httpServer := none, pathPrefixes := [], pathMap := [],
      started := false, deleted := false, useTls := tl.contains host, useFunnel := uf,
      enableLogging := el, generation := ing.generation }
  { st with ts := ts, hosts := minsert st.hosts host newHost }

/-- Proof-layer name for the teardown of an existing host on the
generation-replacement path of `processRule`: only the ts server is closed
(the http server handle is left untouched), and the map entry is dropped. -/
def eraseStage (st : HState) (host : String) (ex : HttpHost) : HState :=
  { st with ts := st.ts.close ex.tsServer, hosts := merase st.hosts host }

theorem processRule_eq_norec (srv : SrvOracle) (ing : Ingress) (tl : List String)
    (uf el : Bool) (st : HState) (r : IngressRule) (paths : List HTTPIngressPath)
    (ex : HttpHost)
    (h1 : ¬ r.host = "") (h2 : goContains r.host '*' = false)
    (h3 : r.http = some paths)
    (hl : mlookup st.hosts r.host = some ex)
    (hgen : ¬ ex.generation < ing.generation) :
    processRule srv ing tl uf el st r = affirmStage srv ing paths st r.host := by
  unfold processRule affirmStage
  simp [h1, h2, h3, hl, hgen]

theorem processRule_eq_create (srv : SrvOracle) (ing : Ingress) (tl : List String)
    (uf el : Bool) (st : HState) (r : IngressRule) (paths : List HTTPIngressPath)
    (h1 : ¬ r.host = "") (h2 : goContains r.host '*' = false)
    (h3 : r.http = some paths)
    (hl : mlookup st.hosts r.host = none) :
    processRule srv ing tl uf el st r =
      affirmStage srv ing paths (createStage ing tl uf el st r.host) r.host := by
  unfold processRule affirmStage createStage
  simp [h1, h2, h3, hl]

theorem processRule_eq_recreate (srv : SrvOracle) (ing : Ingress) (tl : List String)
    (uf el : Bool) (st : HState) (r : IngressRule) (paths : List HTTPIngressPath)
    (ex : HttpHost)
    (h1 : ¬ r.host = "") (h2 : goContains r.host '*' = false)
    (h3 : r.http = some paths)
    (hl : mlookup st.hosts r.host = some ex)
    (hgen : ex.generation < ing.generation) :
    processRule srv ing tl uf el st r =
      affirmStage srv ing paths
        (createStage ing tl uf el (eraseStage st r.host ex) r.host) r.host := by
  unfold processRule affirmStage createStage eraseStage
  simp [h1, h2, h3, hl, hgen]

theorem affirmStage_stores (srv : SrvOracle) (ing : Ingress)
    (paths : List HTTPIngressPath) (st : HState) (host : String) :
    (affirmStage srv ing paths st host).ts = st.ts ∧
    (affirmStage srv ing paths st host).http = st.http := by
  unfold affirmStage
  split <;> simp

theorem affirmStage_lookup_ne (srv : SrvOracle) (ing : Ingress)
    (paths : List HTTPIngressPath) (st : HState) (host n : String) (hne : n ≠ host) :
    mlookup (affirmStage srv ing paths st host).hosts n = mlookup st.hosts n := by
  unfold affirmStage
  split <;> simp [mlookup_mmodify_ne _ host n _ (Ne.symm hne)]

theorem affirmStage_lookup_self (srv : SrvOracle) (ing : Ingress)
    (paths : List HTTPIngressPath) (st : HState) (host : String) (h : HttpHost)
    (hl : mlookup st.hosts host = some h) :
    ∃ h', mlookup (affirmStage srv ing paths st host).hosts host = some h' ∧
      h'.deleted = false ∧ h'.tsServer = h.tsServer ∧ h'.httpServer = h.httpServer ∧
      h'.started = h.started ∧ h'.generation = h.generation := by
  unfold affirmStage
  split
  · refine ⟨_, by rw [mlookup_mmodify_self, hl]; rfl, ?_⟩
    simp
  · have step1 : mlookup (mmodify st.hosts host (fun h => { h with deleted := false })) host
        = some { h with deleted := false } := by
      rw [mlookup_mmodify_self, hl]; rfl
    refine ⟨_, by rw [mlookup_mmodify_self, step1]; rfl, ?_⟩
    have hf := pathFold_fields srv ing.namespc paths { h with deleted := false }
    exact ⟨hf.2.2.1, hf.1, hf.2.1, hf.2.2.2.1, hf.2.2.2.2⟩

theorem affirmStage_nodup (srv : SrvOracle) (ing : Ingress)
    (paths : List HTTPIngressPath) (st : HState) (host : String)
    (h : (mkeys st.hosts).Nodup) :
    (mkeys (affirmStage srv ing paths st host).hosts).Nodup := by
  unfold affirmStage
  split <;> simp [mkeys_mmodify, h]

theorem affirmStage_hwf (srv : SrvOracle) (ing : Ingress)
    (paths : List HTTPIngressPath) (st : HState) (host : String) (hwf : HWF st) :
    HWF (affirmStage srv ing paths st host) := by
  intro n h' hl'
  rw [(affirmStage_stores srv ing paths st host).1,
      (affirmStage_stores srv ing paths st host).2]
  by_cases hne : n = host
  · subst hne
    cases hl : mlookup st.hosts n with
    | none =>
        exfalso
        have := affirmStage_lookup_ne srv ing paths st n n
        unfold affirmStage at hl'
        revert hl'
        split <;> rw [mlookup_mmodify_self] <;> (try rw [mlookup_mmodify_self]) <;>
          simp [hl]
    | some h =>
        obtain ⟨h'', hl'', _, hts, hhttp, _, _⟩ :=
          affirmStage_lookup_self srv ing paths st n h hl
        rw [hl'] at hl''
        cases hl''
        have hb := hwf n h hl
        exact ⟨hts ▸ hb.1, fun i hi => hb.2 i (hhttp ▸ hi)⟩
  · rw [affirmStage_lookup_ne srv ing paths st host n hne] at hl'
    exact hwf n h' hl'

theorem createStage_stores (ing : Ingress) (tl : List String) (uf el : Bool)
    (st : HState) (host : String) :
    (createStage ing tl uf el st host).ts = (st.ts.alloc host).1 ∧
    (createStage ing tl uf el st host).http = st.http := by
  unfold createStage
  exact ⟨rfl, rfl⟩

theorem createStage_lookup_self (ing : Ingress) (tl : List String) (uf el : Bool)
    (st : HState) (host : String) :
    ∃ h', mlookup (createStage ing tl uf el st host).hosts host = some h' ∧
      h'.deleted = false ∧ h'.started = false ∧ h'.httpServer = none ∧
      h'.tsServer = st.ts.next ∧ h'.pathMap = [] ∧ h'.pathPrefixes = [] ∧
      h'.generation = ing.generation := by
  unfold createStage
  exact ⟨_, mlookup_minsert_self _ _ _, rfl, rfl, rfl, rfl, rfl, rfl, rfl⟩

theorem createStage_lookup_ne (ing : Ingress) (tl : List String) (uf el : Bool)
    (st : HState) (host n : String) (hne : n ≠ host) :
    mlookup (createStage ing tl uf el st host).hosts n = mlookup st.hosts n := by
  unfold createStage
  exact mlookup_minsert_ne _ _ _ _ (Ne.symm hne)

theorem createStage_nodup (ing : Ingress) (tl : List String) (uf el : Bool)
    (st : HState) (host : String) (h : (mkeys st.hosts).Nodup) :
    (mkeys (createStage ing tl uf el st host).hosts).Nodup := by
  unfold createStage
  exact nodup_mkeys_minsert _ _ _ h

theorem createStage_hwf (ing : Ingress) (tl : List String) (uf el : Bool)
    (st : HState) (host : String) (hwf : HWF st) :
    HWF (createStage ing tl uf el st host) := by
  intro n h' hl'
  rw [(createStage_stores ing tl uf el st host).1,
      (createStage_stores ing tl uf el st host).2]
  rw [Store.alloc_next]
  by_cases hne : n = host
  · subst hne
    obtain ⟨h'', hl'', _, _, hhttp, hts, _, _, _⟩ :=
      createStage_lookup_self ing tl uf el st n
    rw [hl'] at hl''
    cases hl''
    refine ⟨by rw [hts]; exact Nat.lt_succ_self _, fun i hi => ?_⟩
    rw [hhttp] at hi
    cases hi
  · rw [createStage_lookup_ne ing tl uf el st host n hne] at hl'
    have hb := hwf n h' hl'
    exact ⟨Nat.lt_succ_of_lt hb.1, hb.2⟩

theorem eraseStage_stores (st : HState) (host : String) (ex : HttpHost) :
    (eraseStage st host ex).ts = st.ts.close ex.tsServer ∧
    (eraseStage st host ex).http = st.http := ⟨rfl, rfl⟩

theorem eraseStage_lookup_self (st : HState) (host : String) (ex : HttpHost) :
    mlookup (eraseStage st host ex).hosts host = none :=
  mlookup_merase_self _ _

theorem eraseStage_lookup_ne (st : HState) (host n : String) (ex : HttpHost)
    (hne : n ≠ host) :
    mlookup (eraseStage st host ex).hosts n = mlookup st.hosts n :=
  mlookup_merase_ne _ _ _ (Ne.symm hne)

theorem eraseStage_nodup (st : HState) (host : String) (ex : HttpHost)
    (h : (mkeys st.hosts).Nodup) : (mkeys (eraseStage st host ex).hosts).Nodup :=
  nodup_mkeys_merase _ _ h

theorem eraseStage_hwf (st : HState) (host : String) (ex : HttpHost) (hwf : HWF st) :
    HWF (eraseStage st host ex) := by
  intro n h' hl'
  rw [(eraseStage_stores st host ex).1, (eraseStage_stores st host ex).2,
      Store.close_next]
  by_cases hne : n = host
  · subst hne
    rw [eraseStage_lookup_self] at hl'
    cases hl'
  · rw [eraseStage_lookup_ne st host n ex hne] at hl'
    exact hwf n h' hl'

/-- Invariant carried through the processing phase of `HttpController.update`:
relative to the post-mark state `st₀` and the hostnames `V` affirmed so far,
the current state `st` is well-formed, contains exactly the old keys plus
`V`, has `deleted = false` exactly on `V`, and keeps every still-deleted
host byte-for-byte as it was after marking. -/
def ProcInv (st₀ st : HState) (V : List String) : Prop :=
  HWF st ∧ (mkeys st.hosts).Nodup ∧
  Store.Mono st₀.ts st.ts ∧ st.http = st₀.http ∧
  (∀ n, (mlookup st.hosts n).isSome ↔ (mlookup st₀.hosts n).isSome ∨ n ∈ V) ∧
  (∀ n h, mlookup st.hosts n = some h → (h.deleted = false ↔ n ∈ V)) ∧
  (∀ n h, mlookup st.hosts n = some h → h.deleted = true → mlookup st₀.hosts n = some h)

theorem procInv_init (st₀ : HState) (hwf : HWF st₀) (hnd : (mkeys st₀.hosts).Nodup)
    (hdel : ∀ n h, mlookup st₀.hosts n = some h → h.deleted = true) :
    ProcInv st₀ st₀ [] := by
  refine ⟨hwf, hnd, Store.Mono.refl _, rfl, fun n => by simp, fun n h hl => ?_, fun n h hl _ => hl⟩
  simp [hdel n h hl]

theorem procInv_processRule (srv : SrvOracle) (ing : Ingress) (tl : List String)
    (uf el : Bool) (st₀ st : HState) (V : List String) (r : IngressRule)
    (inv : ProcInv st₀ st V) :
    ProcInv st₀ (processRule srv ing tl uf el st r)
      (if ruleValid r then V ++ [r.host] else V) := by
  obtain ⟨hwf, hnd, hmono, hhttp, hkeys, hdel, huntouched⟩ := inv
  by_cases hv : ruleValid r = true
  swap
  · rw [processRule_invalid srv ing tl uf el st r (by simpa using hv)]
    rw [if_neg (by simpa using hv)]
    exact ⟨hwf, hnd, hmono, hhttp, hkeys, hdel, huntouched⟩
  rw [if_pos hv]
  have h1 : ¬ r.host = "" := by
    intro hh
    simp [ruleValid, hh] at hv
  have h2 : goContains r.host '*' = false := by
    rcases Bool.eq_false_or_eq_true (goContains r.host '*') with h | h
    · simp [ruleValid, h] at hv
    · exact h
  obtain ⟨paths, h3⟩ : ∃ paths, r.http = some paths := by
    cases hh : r.http with
    | none => simp [ruleValid, hh] at hv
    | some paths => exact ⟨paths, rfl⟩
  -- the three source branches, each reduced to its stage normal form
  have main : ∀ st₁ : HState,
      HWF st₁ → (mkeys st₁.hosts).Nodup → Store.Mono st₀.ts st₁.ts →
      st₁.http = st₀.http →
      (∀ n, n ≠ r.host → mlookup st₁.hosts n = mlookup st.hosts n) →
      (∃ hh, mlookup st₁.hosts r.host = some hh ∧ hh.deleted = false) ∨
        (∃ hh, mlookup st₁.hosts r.host = some hh ∧
          mlookup st.hosts r.host = some hh) →
      ProcInv st₀ (affirmStage srv ing paths st₁ r.host) (V ++ [r.host]) := by
    intro st₁ hwf₁ hnd₁ hmono₁ hhttp₁ hne₁ hself₁
    obtain ⟨hh, hlh⟩ : ∃ hh, mlookup st₁.hosts r.host = some hh := by
      rcases hself₁ with ⟨hh, hl, _⟩ | ⟨hh, hl, _⟩ <;> exact ⟨hh, hl⟩
    obtain ⟨h', hl', hdel', hts', hhttp', hstart', hgen'⟩ :=
      affirmStage_lookup_self srv ing paths st₁ r.host hh hlh
    refine ⟨affirmStage_hwf srv ing paths st₁ r.host hwf₁,
            affirmStage_nodup srv ing paths st₁ r.host hnd₁,
            by rw [(affirmStage_stores srv ing paths st₁ r.host).1]; exact hmono₁,
            by rw [(affirmStage_stores srv ing paths st₁ r.host).2]; exact hhttp₁,
            fun n => ?_, fun n h hl => ?_, fun n h hl hd => ?_⟩
    · by_cases hn : n = r.host
      · subst hn
        simp only [hl', Option.isSome_some, true_iff, List.mem_append,
          List.mem_singleton, or_true, iff_true]
      · rw [affirmStage_lookup_ne srv ing paths st₁ r.host n hn, hne₁ n hn]
        rw [hkeys n]
        constructor
        · rintro (ha | hb)
          · exact Or.inl ha
          · exact Or.inr (List.mem_append_left _ hb)
        · rintro (ha | hb)
          · exact Or.inl ha
          · rcases List.mem_append.mp hb with hb | hb
            · exact Or.inr hb
            · exact absurd (List.mem_singleton.mp hb) hn
    · by_cases hn : n = r.host
      · subst hn
        rw [hl'] at hl
        cases hl
        simp [hdel']
      · rw [affirmStage_lookup_ne srv ing paths st₁ r.host n hn, hne₁ n hn] at hl
        rw [hdel n h hl]
        constructor
        · exact fun hb => List.mem_append_left _ hb
        · intro hb
          rcases List.mem_append.mp hb with hb | hb
          · exact hb
          · exact absurd (List.mem_singleton.mp hb) hn
    · by_cases hn : n = r.host
      · subst hn
        rw [hl'] at hl
        cases hl
        rw [hdel'] at hd
        cases hd
      · rw [affirmStage_lookup_ne srv ing paths st₁ r.host n hn, hne₁ n hn] at hl
        exact huntouched n h hl hd
  cases hl : mlookup st.hosts r.host with
  | none =>
      rw [processRule_eq_create srv ing tl uf el st r paths h1 h2 h3 hl]
      obtain ⟨h', hl', hdel', _⟩ := createStage_lookup_self ing tl uf el st r.host
      refine main (createStage ing tl uf el st r.host)
        (createStage_hwf ing tl uf el st r.host hwf)
        (createStage_nodup ing tl uf el st r.host hnd)
        ?_ ?_ (fun n hn => createStage_lookup_ne ing tl uf el st r.host n hn)
        (Or.inl ⟨h', hl', hdel'⟩)
      · rw [(createStage_stores ing tl uf el st r.host).1]
        exact hmono.trans (Store.mono_alloc st.ts r.host)
      · rw [(createStage_stores ing tl uf el st r.host).2]
        exact hhttp
  | some ex =>
      by_cases hgen : ex.generation < ing.generation
      · rw [processRule_eq_recreate srv ing tl uf el st r paths ex h1 h2 h3 hl hgen]
        obtain ⟨h', hl', hdel', _⟩ :=
          createStage_lookup_self ing tl uf el (eraseStage st r.host ex) r.host
        refine main (createStage ing tl uf el (eraseStage st r.host ex) r.host)
          (createStage_hwf ing tl uf el (eraseStage st r.host ex) r.host
            (eraseStage_hwf st r.host ex hwf))
          (createStage_nodup ing tl uf el (eraseStage st r.host ex) r.host
            (eraseStage_nodup st r.host ex hnd))
          ?_ ?_ ?_ (Or.inl ⟨h', hl', hdel'⟩)
        · rw [(createStage_stores ing tl uf el (eraseStage st r.host ex) r.host).1,
              (eraseStage_stores st r.host ex).1]
          exact (hmono.trans (Store.mono_close st.ts ex.tsServer)).trans
            (Store.mono_alloc _ r.host)
        · rw [(createStage_stores ing tl uf el (eraseStage st r.host ex) r.host).2,
              (eraseStage_stores st r.host ex).2]
          exact hhttp
        · intro n hn
          rw [createStage_lookup_ne ing tl uf el (eraseStage st r.host ex) r.host n hn]
          exact eraseStage_lookup_ne st r.host n ex hn
      · rw [processRule_eq_norec srv ing tl uf el st r paths ex h1 h2 h3 hl hgen]
        exact main st hwf hnd hmono hhttp (fun _ _ => rfl) (Or.inr ⟨ex, hl, hl⟩)

theorem procInv_rulesFold (srv : SrvOracle) (ing : Ingress) (tl : List String)
    (uf el : Bool) (st₀ : HState) :
    ∀ (rs : List IngressRule) (st : HState) (V : List String),
      ProcInv st₀ st V →
      ProcInv st₀ (rs.foldl (processRule srv ing tl uf el) st)
        (V ++ (rs.filter ruleValid).map IngressRule.host) := by
  intro rs
  induction rs with
  | nil => intro st V inv; simpa using inv
  | cons r rest ih =>
      intro st V inv
      have step := procInv_processRule srv ing tl uf el st₀ st V r inv
      have ihr := ih (processRule srv ing tl uf el st r)
        (if ruleValid r then V ++ [r.host] else V) step
      simp only [List.foldl_cons]
      by_cases hr : ruleValid r = true
      · rw [if_pos hr] at ihr
        have : V ++ [r.host] ++ (rest.filter ruleValid).map IngressRule.host =
            V ++ ((r :: rest).filter ruleValid).map IngressRule.host := by
          simp [List.filter_cons, hr, List.append_assoc]
        rwa [this] at ihr
      · rw [if_neg hr] at ihr
        have : V ++ (rest.filter ruleValid).map IngressRule.host =
            V ++ ((r :: rest).filter ruleValid).map IngressRule.host := by
          simp [List.filter_cons, hr]
        rwa [this] at ihr

theorem procInv_processIngress (srv : SrvOracle) (st₀ : HState) (ing : Ingress)
    (st : HState) (V : List String) (inv : ProcInv st₀ st V) :
    ProcInv st₀ (processIngress srv st ing) (V ++ ingressValidHosts ing) := by
  unfold processIngress ingressValidHosts
  by_cases hc : ing.ingressClassName.getD "" = INGRESS_CLASS_NAME
  · rw [if_neg (by simp [hc]), if_pos hc]
    exact procInv_rulesFold srv ing (ing.tls.flatten)
      (ing.labels.contains "tailscale.com/funnel")
      (ing.labels.contains "tailscale.com/logging") st₀ ing.rules st V inv
  · rw [if_pos (by simp [hc]), if_neg hc]
    simpa using inv

theorem procInv_ingsFold (srv : SrvOracle) (st₀ : HState) :
    ∀ (ings : List Ingress) (st : HState) (V : List String),
      ProcInv st₀ st V →
      ProcInv st₀ (ings.foldl (processIngress srv) st) (V ++ httpValidHosts ings) := by
  intro ings
  induction ings with
  | nil => intro st V inv; simpa [httpValidHosts] using inv
  | cons ing rest ih =>
      intro st V inv
      have step := procInv_processIngress srv st₀ ing st V inv
      have ihr := ih (processIngress srv st ing) (V ++ ingressValidHosts ing) step
      simp only [List.foldl_cons]
      have : V ++ ingressValidHosts ing ++ httpValidHosts rest =
          V ++ httpValidHosts (ing :: rest) := by
        simp [httpValidHosts, List.append_assoc]
      rwa [this] at ihr


/-! ## Characterisation of the HTTP sweep/start phase -/

theorem sweepStep_lookup_ne (lk : String → Bool) (st st' : HState) (k n : String)
    (hne : n ≠ k) (hok : sweepStep lk st k = Except.ok st') :
    mlookup st'.hosts n = mlookup st.hosts n := by
  unfold sweepStep at hok
  cases hl : mlookup st.hosts k with
  | none =>
      rw [hl] at hok
      cases hok
      rfl
  | some h =>
      rw [hl] at hok
      simp only [] at hok
      by_cases hd : h.deleted = true
      · rw [if_pos hd] at hok
        cases hhs : h.httpServer with
        | none => rw [hhs] at hok; cases hok
        | some hi =>
            rw [hhs] at hok
            try simp only [] at hok
            cases hok
            exact mlookup_merase_ne _ _ _ (Ne.symm hne)
      · rw [if_neg hd] at hok
        by_cases hs : h.started = true
        · rw [if_pos hs] at hok; cases hok; rfl
        · rw [if_neg hs] at hok
          by_cases hlk : lk k = true
          · rw [if_neg (by simp [hlk])] at hok
            try simp only [] at hok
            cases hok
            exact mlookup_mmodify_ne _ _ _ _ (Ne.symm hne)
          · rw [if_pos (by simp [hlk])] at hok
            cases hok
            rfl

theorem sweepStep_mono (lk : String → Bool) (st st' : HState) (k : String)
    (hok : sweepStep lk st k = Except.ok st') :
    Store.Mono st.ts st'.ts ∧ Store.Mono st.http st'.http := by
  unfold sweepStep at hok
  cases hl : mlookup st.hosts k with
  | none =>
      rw [hl] at hok
      cases hok
      exact ⟨Store.Mono.refl _, Store.Mono.refl _⟩
  | some h =>
      rw [hl] at hok
      simp only [] at hok
      by_cases hd : h.deleted = true
      · rw [if_pos hd] at hok
        cases hhs : h.httpServer with
        | none => rw [hhs] at hok; cases hok
        | some hi =>
            rw [hhs] at hok
            try simp only [] at hok
            cases hok
            exact ⟨Store.mono_close _ _, Store.mono_close _ _⟩
      · rw [if_neg hd] at hok
        by_cases hs : h.started = true
        · rw [if_pos hs] at hok; cases hok
          exact ⟨Store.Mono.refl _, Store.Mono.refl _⟩
        · rw [if_neg hs] at hok
          by_cases hlk : lk k = true
          · rw [if_neg (by simp [hlk])] at hok
            try simp only [] at hok
            cases hok
            exact ⟨Store.Mono.refl _, Store.mono_alloc _ _⟩
          · rw [if_pos (by simp [hlk])] at hok
            cases hok
            exact ⟨Store.Mono.refl _, Store.Mono.refl _⟩

theorem sweepStep_hwf (lk : String → Bool) (st st' : HState) (k : String)
    (hwf : HWF st) (hok : sweepStep lk st k = Except.ok st') : HWF st' := by
  unfold sweepStep at hok
  cases hl : mlookup st.hosts k with
  | none =>
      rw [hl] at hok
      cases hok
      exact hwf
  | some h =>
      rw [hl] at hok
      simp only [] at hok
      by_cases hd : h.deleted = true
      · rw [if_pos hd] at hok
        cases hhs : h.httpServer with
        | none => rw [hhs] at hok; cases hok
        | some hi =>
            rw [hhs] at hok
            try simp only [] at hok
            cases hok
            intro n h' hl'
            by_cases hne : n = k
            · subst hne
              rw [mlookup_merase_self] at hl'
              cases hl'
            · rw [mlookup_merase_ne _ _ _ (Ne.symm hne)] at hl'
              simpa [Store.close_next] using hwf n h' hl'
      · rw [if_neg hd] at hok
        by_cases hs : h.started = true
        · rw [if_pos hs] at hok; cases hok; exact hwf
        · rw [if_neg hs] at hok
          by_cases hlk : lk k = true
          · rw [if_neg (by simp [hlk])] at hok
            try simp only [] at hok
            cases hok
            intro n h' hl'
            by_cases hne : n = k
            · subst hne
              rw [mlookup_mmodify_self, hl] at hl'
              cases hl'
              refine ⟨by simpa using (hwf n h hl).1, fun i hi => ?_⟩
              simp only [Option.some_inj] at hi
              subst hi
              simp [Store.alloc_next, Store.alloc_idx]
            · rw [mlookup_mmodify_ne _ _ _ _ (Ne.symm hne)] at hl'
              have hb := hwf n h' hl'
              refine ⟨hb.1, fun i hi => ?_⟩
              have := hb.2 i hi
              simp only [Store.alloc_next]
              exact Nat.lt_succ_of_lt this
          · rw [if_pos (by simp [hlk])] at hok
            cases hok
            exact hwf

theorem sweepStep_self_deleted (lk : String → Bool) (st st' : HState) (k : String)
    (h : HttpHost) (hl : mlookup st.hosts k = some h) (hd : h.deleted = true)
    (hok : sweepStep lk st k = Except.ok st') :
    mlookup st'.hosts k = none ∧ st'.ts.closed h.tsServer = true ∧
    (∀ i, h.httpServer = some i → st'.http.closed i = true) := by
  unfold sweepStep at hok
  rw [hl] at hok
  simp only [] at hok
  rw [if_pos hd] at hok
  cases hhs : h.httpServer with
  | none => rw [hhs] at hok; cases hok
  | some hi =>
      rw [hhs] at hok
      try simp only [] at hok
      cases hok
      refine ⟨mlookup_merase_self _ _, Store.close_self _ _, fun i hi' => ?_⟩
      simp only [hhs, Option.some_inj] at hi'
      subst hi'
      exact Store.close_self _ _

theorem sweepStep_self_alive (lk : String → Bool) (st st' : HState) (k : String)
    (h : HttpHost) (hl : mlookup st.hosts k = some h) (hd : h.deleted = false)
    (hok : sweepStep lk st k = Except.ok st') :
    (mlookup st'.hosts k).isSome := by
  unfold sweepStep at hok
  rw [hl] at hok
  simp only [] at hok
  rw [if_neg (by simp [hd])] at hok
  by_cases hs : h.started = true
  · rw [if_pos hs] at hok; cases hok; simp [hl]
  · rw [if_neg hs] at hok
    by_cases hlk : lk k = true
    · rw [if_neg (by simp [hlk])] at hok
      try simp only [] at hok
      cases hok
      rw [mlookup_mmodify_self, hl]
      rfl
    · rw [if_pos (by simp [hlk])] at hok
      cases hok
      simp [hl]

theorem sweepStep_self_none (lk : String → Bool) (st st' : HState) (k : String)
    (hl : mlookup st.hosts k = none) (hok : sweepStep lk st k = Except.ok st') :
    st' = st := by
  unfold sweepStep at hok
  rw [hl] at hok
  cases hok
  rfl

theorem sweepFold_spec (lk : String → Bool) :
    ∀ (ks : List String) (st st' : HState),
      ks.Nodup → HWF st →
      (List.foldlM (sweepStep lk) st ks : Except Unit HState) = Except.ok st' →
      HWF st' ∧ Store.Mono st.ts st'.ts ∧ Store.Mono st.http st'.http ∧
      (∀ n, n ∉ ks → mlookup st'.hosts n = mlookup st.hosts n) ∧
      (∀ n, n ∈ ks →
        (mlookup st.hosts n = none → mlookup st'.hosts n = none) ∧
        (∀ h, mlookup st.hosts n = some h →
          (h.deleted = true → mlookup st'.hosts n = none ∧
            st'.ts.closed h.tsServer = true ∧
            (∀ i, h.httpServer = some i → st'.http.closed i = true)) ∧
          (h.deleted = false → (mlookup st'.hosts n).isSome = true))) := by
  intro ks
  induction ks with
  | nil =>
      intro st st' _ hwf hok
      simp only [List.foldlM_nil] at hok
      cases hok
      exact ⟨hwf, Store.Mono.refl _, Store.Mono.refl _, fun n _ => rfl, fun n hn => by cases hn⟩
  | cons k ks ih =>
      intro st st' hnd hwf hok
      simp only [List.foldlM_cons] at hok
      cases hstep : sweepStep lk st k with
      | error e => rw [hstep] at hok; cases hok
      | ok st₁ =>
          rw [hstep] at hok
          simp only [bind, Except.bind] at hok
          have hndk : k ∉ ks := (List.nodup_cons.mp hnd).1
          have hndks : ks.Nodup := (List.nodup_cons.mp hnd).2
          have hwf₁ := sweepStep_hwf lk st st₁ k hwf hstep
          obtain ⟨ihwf, ihmts, ihmhttp, ihun, ihmem⟩ := ih st₁ st' hndks hwf₁ hok
          have hmono := sweepStep_mono lk st st₁ k hstep
          refine ⟨ihwf, hmono.1.trans ihmts, hmono.2.trans ihmhttp, ?_, ?_⟩
          · intro n hn
            have hnk : n ≠ k := fun hh => hn (hh ▸ List.mem_cons_self _ _)
            have hnks : n ∉ ks := fun hh => hn (List.mem_cons_of_mem _ hh)
            rw [ihun n hnks]
            exact sweepStep_lookup_ne lk st st₁ k n hnk hstep
          · intro n hn
            rcases List.mem_cons.mp hn with hnk | hnks
            · subst hnk
              constructor
              · intro hl
                have hid := sweepStep_self_none lk st st₁ n hl hstep
                subst hid
                rw [ihun n hndk]
                exact hl
              · intro h hl
                constructor
                · intro hd
                  obtain ⟨hgone, htsc, hhttpc⟩ :=
                    sweepStep_self_deleted lk st st₁ n h hl hd hstep
                  have hb := hwf n h hl
                  refine ⟨by rw [ihun n hndk]; exact hgone, ?_, ?_⟩
                  · exact ihmts.2 h.tsServer (lt_of_lt_of_le hb.1 hmono.1.1) htsc
                  · intro i hi
                    exact ihmhttp.2 i (lt_of_lt_of_le (hb.2 i hi) hmono.2.1) (hhttpc i hi)
                · intro hd
                  have halive := sweepStep_self_alive lk st st₁ n h hl hd hstep
                  rw [ihun n hndk]
                  exact halive
            · have hnk : n ≠ k := fun hh => hndk (hh ▸ hnks)
              have heq := sweepStep_lookup_ne lk st st₁ k n hnk hstep
              have := ihmem n hnks
              rw [heq] at this
              constructor
              · intro hl
                exact this.1 hl
              · intro h hl
                refine ⟨fun hd => ?_, fun hd => (this.2 h hl).2 hd⟩
                obtain ⟨hgone, htsc, hhttpc⟩ := (this.2 h hl).1 hd
                exact ⟨hgone, htsc, hhttpc⟩

/-- End-to-end specification of one HTTP reconciliation pass (used by the
claims about the sweep invariant): on success, the host map holds exactly
the valid hostnames of the snapshot, and every pre-existing host whose name
is not among them has been removed with both of its servers closed. -/
theorem httpUpdate_spec (srv : SrvOracle) (lk : String → Bool) (st : HState)
    (ings : List Ingress) (st' : HState)
    (hwf : HWF st) (hnd : (mkeys st.hosts).Nodup)
    (hok : httpUpdate srv lk st ings = Except.ok st') :
    (∀ n, (mlookup st'.hosts n).isSome ↔ n ∈ httpValidHosts ings) ∧
    (∀ n h, mlookup st.hosts n = some h → n ∉ httpValidHosts ings →
      mlookup st'.hosts n = none ∧ st'.ts.closed h.tsServer = true ∧
      (∀ i, h.httpServer = some i → st'.http.closed i = true)) := by
  have hwfM : HWF { st with hosts := markDeleted st.hosts } := by
    intro n h hl
    have hl' : mlookup (markDeleted st.hosts) n = some h := hl
    rw [mlookup_markDeleted] at hl'
    show h.tsServer < st.ts.next ∧ ∀ i, h.httpServer = some i → i < st.http.next
    cases hl0 : mlookup st.hosts n with
    | none => rw [hl0] at hl'; cases hl'
    | some h0 =>
        rw [hl0] at hl'
        simp only [Option.map_some'] at hl'
        cases hl'
        exact hwf n h0 hl0
  have hndM : (mkeys (markDeleted st.hosts)).Nodup := by
    rw [mkeys_markDeleted]
    exact hnd
  have hdelM : ∀ n h, mlookup (markDeleted st.hosts) n = some h → h.deleted = true := by
    intro n h hl
    rw [mlookup_markDeleted] at hl
    cases hl0 : mlookup st.hosts n with
    | none => rw [hl0] at hl; cases hl
    | some h0 => rw [hl0] at hl; simp only [Option.map_some'] at hl; cases hl; rfl
  have inv0 := procInv_init { st with hosts := markDeleted st.hosts } hwfM hndM hdelM
  have invP := procInv_ingsFold srv { st with hosts := markDeleted st.hosts } ings
    { st with hosts := markDeleted st.hosts } [] inv0
  simp only [List.nil_append] at invP
  obtain ⟨hwfP, hndP, _, _, hkeysP, hdelP, huntP⟩ := invP
  have hokF : (List.foldlM (sweepStep lk)
      (ings.foldl (processIngress srv) { st with hosts := markDeleted st.hosts })
      (mkeys (ings.foldl (processIngress srv)
        { st with hosts := markDeleted st.hosts }).hosts) : Except Unit HState) =
      Except.ok st' := hok
  obtain ⟨hwfF, hmtsF, hmhttpF, hunF, hmemF⟩ :=
    sweepFold_spec lk
      (mkeys (ings.foldl (processIngress srv) { st with hosts := markDeleted st.hosts }).hosts)
      (ings.foldl (processIngress srv) { st with hosts := markDeleted st.hosts })
      st' hndP hwfP hokF
  constructor
  · intro n
    by_cases hk : n ∈ mkeys (ings.foldl (processIngress srv)
        { st with hosts := markDeleted st.hosts }).hosts
    · rw [mem_mkeys_iff_isSome] at hk
      cases hl : mlookup (ings.foldl (processIngress srv)
          { st with hosts := markDeleted st.hosts }).hosts n with
      | none => rw [hl] at hk; cases hk
      | some h =>
          have hmem := hmemF n (by rw [mem_mkeys_iff_isSome, hl]; rfl)
          rcases Bool.eq_false_or_eq_true h.deleted with hd | hd
          · have hv : n ∉ httpValidHosts ings := by
              intro hvv
              rw [← hdelP n h hl] at hvv
              rw [hd] at hvv
              cases hvv
            obtain ⟨hgone, _, _⟩ := (hmem.2 h hl).1 hd
            simp [hgone, hv]
          · have hv : n ∈ httpValidHosts ings := (hdelP n h hl).mp hd
            have := (hmem.2 h hl).2 hd
            simp [this, hv]
    · have hnone : mlookup (ings.foldl (processIngress srv)
          { st with hosts := markDeleted st.hosts }).hosts n = none := by
        cases hl : mlookup (ings.foldl (processIngress srv)
            { st with hosts := markDeleted st.hosts }).hosts n with
        | none => rfl
        | some h =>
            exfalso
            exact hk (by rw [mem_mkeys_iff_isSome, hl]; rfl)
      have hun := hunF n hk
      rw [hnone] at hun
      have hnv : n ∉ httpValidHosts ings := by
        intro hv
        have := (hkeysP n).mpr (Or.inr hv)
        rw [hnone] at this
        cases this
      simp [hun, hnv]
  · intro n h hl hnv
    have hlM : mlookup (markDeleted st.hosts) n = some { h with deleted := true } := by
      rw [mlookup_markDeleted, hl]
      rfl
    have hkP : (mlookup (ings.foldl (processIngress srv)
        { st with hosts := markDeleted st.hosts }).hosts n).isSome := by
      rw [hkeysP n]
      exact Or.inl (by show (mlookup (markDeleted st.hosts) n).isSome = true; rw [hlM]; rfl)
    cases hlP : mlookup (ings.foldl (processIngress srv)
        { st with hosts := markDeleted st.hosts }).hosts n with
    | none => rw [hlP] at hkP; cases hkP
    | some h₂ =>
        have hd₂ : h₂.deleted = true := by
          rcases Bool.eq_false_or_eq_true h₂.deleted with hdd | hdd
          · exact hdd
          · exact absurd ((hdelP n h₂ hlP).mp hdd) hnv
        have heq : mlookup (markDeleted st.hosts) n = some h₂ := huntP n h₂ hlP hd₂
        rw [hlM] at heq
        have hmem := hmemF n (by rw [mem_mkeys_iff_isSome, hlP]; rfl)
        obtain ⟨hgone, htsc, hhttpc⟩ := (hmem.2 h₂ hlP).1 hd₂
        cases heq
        exact ⟨hgone, htsc, hhttpc⟩

/-! ## TCP reconciliation lemmas -/

theorem cutList_fst_no_sep : ∀ (l : List Char) (sep : Char) (a b : List Char),
    cutList l sep = some (a, b) → a.contains sep = false := by
  intro l
  induction l with
  | nil => intro sep a b h; cases h
  | cons c cs ih =>
      intro sep a b h
      unfold cutList at h
      by_cases hc : c = sep
      · rw [if_pos hc] at h
        cases h
        rfl
      · rw [if_neg hc] at h
        cases hrec : cutList cs sep with
        | none => rw [hrec] at h; cases h
        | some p =>
            rw [hrec] at h
            simp only [Option.map_some'] at h
            cases h
            have := ih sep p.1 p.2 (by rw [hrec])
            simp only [List.contains_cons]
            refine (Bool.or_eq_false_iff).mpr ⟨?_, this⟩
            simp [Ne.symm hc]

theorem goCut_fst_no_sep (s : String) (sep : Char) (a b : String)
    (h : goCut s sep = some (a, b)) : goContains a sep = false := by
  unfold goCut at h
  cases hc : cutList s.data sep with
  | none => rw [hc] at h; cases h
  | some p =>
      rw [hc] at h
      simp only [Option.map_some'] at h
      cases h
      have := cutList_fst_no_sep s.data sep p.1 p.2 hc
      simpa [goContains] using this

theorem cutList_some_contains : ∀ (l : List Char) (sep : Char) (a b : List Char),
    cutList l sep = some (a, b) → l.contains sep = true := by
  intro l
  induction l with
  | nil => intro sep a b h; cases h
  | cons c cs ih =>
      intro sep a b h
      unfold cutList at h
      by_cases hc : c = sep
      · simp [List.contains_cons, hc]
      · rw [if_neg hc] at h
        cases hrec : cutList cs sep with
        | none => rw [hrec] at h; cases h
        | some p =>
            have := ih sep p.1 p.2 hrec
            simp only [List.contains_cons, this, Bool.or_true]

theorem goCut_some_contains (s : String) (sep : Char) (a b : String)
    (h : goCut s sep = some (a, b)) : goContains s sep = true := by
  unfold goCut at h
  cases hc : cutList s.data sep with
  | none => rw [hc] at h; cases h
  | some p =>
      have := cutList_some_contains s.data sep p.1 p.2 hc
      simpa [goContains] using this

theorem processEntry_not_wf (srv : SrvOracle) (st : TState) (alive : List String)
    (e : String × String) (hwf : tcpEntryWf e = false) :
    processEntry srv (st, alive) e = (st, alive) := by
  unfold processEntry
  cases hc1 : goCut e.1 '.' with
  | none => rfl
  | some p1 =>
      obtain ⟨th, tp⟩ := p1
      cases hc2 : goCut e.2 ':' with
      | none => rfl
      | some p2 =>
          exfalso
          simp [tcpEntryWf, hc1, hc2] at hwf

/-- Proof-layer name for the resolve-and-create tail of the TCP entry loop. -/
def tcpCreateTail (srv : SrvOracle) (st : TState) (e : String × String)
    (th tp ref port : String) : TState :=
  match resolveTargetAddress srv (tcpTargetAddress ref) port with
  | none => st
  | some _ =>
      let (ts, tsIdx) := st.ts.alloc th
      let (proxyStore, pIdx) := st.proxy.alloc (":" ++ tp)
      { st with ts := ts, proxy := proxyStore,
                hosts := minsert st.hosts e.1 ⟨tsIdx, pIdx, e.1 ++ ": " ++ e.2⟩ }

/-- Proof-layer name for the signature-mismatch teardown of the TCP entry
loop: close both servers, then delete under the (wrong) `tailnetHost` key. -/
def tcpCloseOld (st : TState) (th : String) (old : TcpHost) : TState :=
  { st with proxy := st.proxy.close old.proxy, ts := st.ts.close old.tsServer,
            hosts := merase st.hosts th }

theorem processEntry_eq_skip (srv : SrvOracle) (st : TState) (alive : List String)
    (e : String × String) (th tp ref port : String) (old : TcpHost)
    (hc1 : goCut e.1 '.' = some (th, tp)) (hc2 : goCut e.2 ':' = some (ref, port))
    (hl : mlookup st.hosts e.1 = some old)
    (hsig : (old.signature == e.1 ++ ": " ++ e.2) = true) :
    processEntry srv (st, alive) e = (st, alive ++ [e.1]) := by
  unfold processEntry
  simp [hc1, hc2, hl, hsig]

theorem processEntry_eq_recreate (srv : SrvOracle) (st : TState) (alive : List String)
    (e : String × String) (th tp ref port : String) (old : TcpHost)
    (hc1 : goCut e.1 '.' = some (th, tp)) (hc2 : goCut e.2 ':' = some (ref, port))
    (hl : mlookup st.hosts e.1 = some old)
    (hsig : (old.signature == e.1 ++ ": " ++ e.2) = false) :
    processEntry srv (st, alive) e =
      (tcpCreateTail srv (tcpCloseOld st th old) e th tp ref port, alive ++ [e.1]) := by
  unfold processEntry tcpCreateTail tcpCloseOld
  simp [hc1, hc2, hl, hsig]
  cases resolveTargetAddress srv (tcpTargetAddress ref) port <;> rfl

theorem processEntry_eq_new (srv : SrvOracle) (st : TState) (alive : List String)
    (e : String × String) (th tp ref port : String)
    (hc1 : goCut e.1 '.' = some (th, tp)) (hc2 : goCut e.2 ':' = some (ref, port))
    (hl : mlookup st.hosts e.1 = none) :
    processEntry srv (st, alive) e =
      (tcpCreateTail srv st e th tp ref port, alive ++ [e.1]) := by
  unfold processEntry tcpCreateTail
  simp [hc1, hc2, hl]
  cases resolveTargetAddress srv (tcpTargetAddress ref) port <;> rfl

theorem tcpCreateTail_lookup_ne (srv : SrvOracle) (st : TState)
    (e : String × String) (th tp ref port : String) (k : String) (hk : k ≠ e.1) :
    mlookup (tcpCreateTail srv st e th tp ref port).hosts k = mlookup st.hosts k := by
  unfold tcpCreateTail
  cases hres : resolveTargetAddress srv (tcpTargetAddress ref) port with
  | none => rfl
  | some a => exact mlookup_minsert_ne _ _ _ _ (Ne.symm hk)

theorem tcpCreateTail_lookup_self (srv : SrvOracle) (st : TState)
    (e : String × String) (th tp ref port : String)
    (hres : (resolveTargetAddress srv (tcpTargetAddress ref) port).isSome = true) :
    (mlookup (tcpCreateTail srv st e th tp ref port).hosts e.1).isSome = true := by
  unfold tcpCreateTail
  cases hr : resolveTargetAddress srv (tcpTargetAddress ref) port with
  | none => rw [hr] at hres; cases hres
  | some a =>
      simp only []
      rw [mlookup_minsert_self]
      rfl

theorem tcpCreateTail_keys (srv : SrvOracle) (st : TState)
    (e : String × String) (th tp ref port : String) (k : String) (h' : TcpHost)
    (hl : mlookup (tcpCreateTail srv st e th tp ref port).hosts k = some h') :
    (mlookup st.hosts k).isSome = true ∨ k = e.1 := by
  by_cases hk : k = e.1
  · exact Or.inr hk
  · rw [tcpCreateTail_lookup_ne srv st e th tp ref port k hk] at hl
    rw [hl]
    exact Or.inl rfl

theorem tcpCloseOld_lookup (st : TState) (th : String) (old : TcpHost) (k : String)
    (hk : k ≠ th) :
    mlookup (tcpCloseOld st th old).hosts k = mlookup st.hosts k :=
  mlookup_merase_ne _ _ _ (Ne.symm hk)

theorem processEntry_wf (srv : SrvOracle) (st : TState) (alive : List String)
    (e : String × String) (th tp ref port : String)
    (hc1 : goCut e.1 '.' = some (th, tp))
    (hc2 : goCut e.2 ':' = some (ref, port)) :
    (processEntry srv (st, alive) e).2 = alive ++ [e.1] ∧
    (∀ k, k ≠ e.1 → goContains k '.' = true →
      mlookup (processEntry srv (st, alive) e).1.hosts k = mlookup st.hosts k) ∧
    (∀ k h', mlookup (processEntry srv (st, alive) e).1.hosts k = some h' →
      (mlookup st.hosts k).isSome = true ∨ k = e.1) ∧
    (tcpEntryResolves srv e = true →
      (mlookup (processEntry srv (st, alive) e).1.hosts e.1).isSome = true) := by
  have hresolves : tcpEntryResolves srv e =
      (resolveTargetAddress srv (tcpTargetAddress ref) port).isSome := by
    unfold tcpEntryResolves
    rw [hc2]
  have hthdot : goContains th '.' = false := goCut_fst_no_sep e.1 '.' th tp hc1
  cases hl : mlookup st.hosts e.1 with
  | some old =>
      by_cases hsig : (old.signature == e.1 ++ ": " ++ e.2) = true
      · rw [processEntry_eq_skip srv st alive e th tp ref port old hc1 hc2 hl hsig]
        refine ⟨rfl, fun k _ _ => rfl, fun k h' hk => Or.inl (by rw [hk]; rfl),
                fun _ => by rw [hl]; rfl⟩
      · rw [processEntry_eq_recreate srv st alive e th tp ref port old hc1 hc2 hl
            (by simpa using hsig)]
        have hth : ∀ k, k ≠ e.1 → goContains k '.' = true →
            mlookup (tcpCreateTail srv (tcpCloseOld st th old) e th tp ref port).hosts k
              = mlookup st.hosts k := by
          intro k hk hkdot
          rw [tcpCreateTail_lookup_ne srv _ e th tp ref port k hk]
          refine tcpCloseOld_lookup st th old k (fun hkth => ?_)
          rw [hkth, hthdot] at hkdot
          cases hkdot
        refine ⟨rfl, hth, fun k h' hk => ?_, fun hres => ?_⟩
        · rcases tcpCreateTail_keys srv _ e th tp ref port k h' hk with hin | hin
          · by_cases hkth : k = th
            · subst hkth
              rw [show mlookup (tcpCloseOld st k old).hosts k = none from
                    mlookup_merase_self _ _] at hin
              cases hin
            · rw [tcpCloseOld_lookup st th old k hkth] at hin
              exact Or.inl hin
          · exact Or.inr hin
        · rw [hresolves] at hres
          exact tcpCreateTail_lookup_self srv _ e th tp ref port hres
  | none =>
      rw [processEntry_eq_new srv st alive e th tp ref port hc1 hc2 hl]
      refine ⟨rfl, fun k hk _ => tcpCreateTail_lookup_ne srv st e th tp ref port k hk,
              fun k h' hk => tcpCreateTail_keys srv st e th tp ref port k h' hk,
              fun hres => ?_⟩
      rw [hresolves] at hres
      exact tcpCreateTail_lookup_self srv st e th tp ref port hres

theorem tcpValidKeys_subset (data : List (String × String)) :
    ∀ k, k ∈ tcpValidKeys data → k ∈ data.map Prod.fst := by
  intro k hk
  unfold tcpValidKeys at hk
  rcases List.mem_map.mp hk with ⟨e, he, hek⟩
  exact List.mem_map.mpr ⟨e, List.mem_of_mem_filter he, hek⟩

theorem tcpEntryWf_key_dot (e : String × String) (h : tcpEntryWf e = true) :
    goContains e.1 '.' = true := by
  unfold tcpEntryWf at h
  cases hcc : goCut e.1 '.' with
  | none => rw [hcc] at h; simp at h
  | some p => exact goCut_some_contains e.1 '.' p.1 p.2 (by rw [hcc])

theorem tcpKeptKeys_subset (srv : SrvOracle) (st : TState)
    (data : List (String × String)) :
    ∀ k, k ∈ tcpKeptKeys srv st data → k ∈ tcpValidKeys data := by
  intro k hk
  unfold tcpKeptKeys at hk
  rcases List.mem_map.mp hk with ⟨e, he, hek⟩
  have hke : tcpEntryKept srv st e = true := List.of_mem_filter he
  unfold tcpValidKeys
  refine List.mem_map.mpr ⟨e, List.mem_filter.mpr ⟨List.mem_of_mem_filter he, ?_⟩, hek⟩
  unfold tcpEntryKept at hke
  exact ((Bool.and_eq_true _ _).mp hke).left

/-- After processing one well-formed entry, its key holds a host exactly
when the target resolves or a host already existed under the key. -/
theorem processEntry_kept (srv : SrvOracle) (st : TState) (alive : List String)
    (e : String × String) (th tp ref port : String)
    (hc1 : goCut e.1 '.' = some (th, tp))
    (hc2 : goCut e.2 ':' = some (ref, port)) :
    (mlookup (processEntry srv (st, alive) e).1.hosts e.1).isSome = true ↔
      (tcpEntryResolves srv e = true ∨ (mlookup st.hosts e.1).isSome = true) := by
  have hresolves : tcpEntryResolves srv e =
      (resolveTargetAddress srv (tcpTargetAddress ref) port).isSome := by
    unfold tcpEntryResolves
    rw [hc2]
  have hthdot : goContains th '.' = false := goCut_fst_no_sep e.1 '.' th tp hc1
  have he1dot : goContains e.1 '.' = true := goCut_some_contains e.1 '.' th tp hc1
  have hneth : e.1 ≠ th := by
    intro hh
    have hx : goContains th '.' = true := hh ▸ he1dot
    rw [hthdot] at hx
    cases hx
  cases hl : mlookup st.hosts e.1 with
  | some old =>
      by_cases hsig : (old.signature == e.1 ++ ": " ++ e.2) = true
      · rw [processEntry_eq_skip srv st alive e th tp ref port old hc1 hc2 hl hsig]
        simp [hl]
      · rw [processEntry_eq_recreate srv st alive e th tp ref port old hc1 hc2 hl
            (by simpa using hsig)]
        cases hres : resolveTargetAddress srv (tcpTargetAddress ref) port with
        | none =>
            have hlook : mlookup (tcpCreateTail srv (tcpCloseOld st th old) e
                th tp ref port).hosts e.1 = some old := by
              unfold tcpCreateTail
              rw [hres]
              exact (tcpCloseOld_lookup st th old e.1 hneth).trans hl
            simp [hlook, hl]
        | some a =>
            have hlook := tcpCreateTail_lookup_self srv (tcpCloseOld st th old) e
              th tp ref port (by rw [hres]; rfl)
            simp [hlook, hl]
  | none =>
      rw [processEntry_eq_new srv st alive e th tp ref port hc1 hc2 hl, hresolves]
      cases hres : resolveTargetAddress srv (tcpTargetAddress ref) port with
      | none =>
          have hlook : mlookup (tcpCreateTail srv st e th tp ref port).hosts e.1
              = none := by
            unfold tcpCreateTail
            rw [hres]
            exact hl
          simp [hlook, hres, hl]
      | some a =>
          have hlook := tcpCreateTail_lookup_self srv st e th tp ref port
            (by rw [hres]; rfl)
          simp [hlook, hres]

theorem tcpEntries_spec (srv : SrvOracle) :
    ∀ (data : List (String × String)) (st : TState) (alive : List String),
      (∀ k h, mlookup st.hosts k = some h → goContains k '.' = true) →
      (data.map Prod.fst).Nodup →
      ((data.foldl (processEntry srv) (st, alive)).2 = alive ++ tcpValidKeys data) ∧
      (∀ k h, mlookup (data.foldl (processEntry srv) (st, alive)).1.hosts k = some h →
        goContains k '.' = true) ∧
      (∀ k, k ∉ tcpValidKeys data →
        mlookup (data.foldl (processEntry srv) (st, alive)).1.hosts k =
          mlookup st.hosts k) ∧
      (∀ k, k ∈ tcpValidKeys data →
        ((mlookup (data.foldl (processEntry srv) (st, alive)).1.hosts k).isSome = true ↔
          k ∈ tcpKeptKeys srv st data)) := by
  intro data
  induction data with
  | nil =>
      intro st alive hdot _
      refine ⟨by simp [tcpValidKeys], hdot, fun k _ => rfl, fun k hk => ?_⟩
      simp [tcpValidKeys] at hk
  | cons e rest ih =>
      intro st alive hdot hnd
      have hndr : (rest.map Prod.fst).Nodup := (List.nodup_cons.mp (by simpa using hnd)).2
      have hnotin : e.1 ∉ rest.map Prod.fst := (List.nodup_cons.mp (by simpa using hnd)).1
      by_cases hwfe : tcpEntryWf e = true
      · obtain ⟨th, tp, hc1⟩ : ∃ th tp, goCut e.1 '.' = some (th, tp) := by
          unfold tcpEntryWf at hwfe
          cases hcc : goCut e.1 '.' with
          | none => rw [hcc] at hwfe; simp at hwfe
          | some p =>
              obtain ⟨a, b⟩ := p
              exact ⟨a, b, rfl⟩
        obtain ⟨ref, port, hc2⟩ : ∃ ref port, goCut e.2 ':' = some (ref, port) := by
          unfold tcpEntryWf at hwfe
          cases hcc : goCut e.2 ':' with
          | none => rw [hcc] at hwfe; simp at hwfe
          | some p =>
              obtain ⟨a, b⟩ := p
              exact ⟨a, b, rfl⟩
        obtain ⟨w1, w2, w3, w4⟩ := processEntry_wf srv st alive e th tp ref port hc1 hc2
        have he1dot : goContains e.1 '.' = true := goCut_some_contains e.1 '.' th tp hc1
        have hdot2 : ∀ k h, mlookup (processEntry srv (st, alive) e).1.hosts k = some h →
            goContains k '.' = true := by
          intro k h hl
          rcases w3 k h hl with hin | hin
          · cases hl0 : mlookup st.hosts k with
            | none => rw [hl0] at hin; cases hin
            | some h0 => exact hdot k h0 hl0
          · rw [hin]; exact he1dot
        have hvcons : tcpValidKeys (e :: rest) = e.1 :: tcpValidKeys rest := by
          simp [tcpValidKeys, List.filter_cons, hwfe]
        have hfold : (e :: rest).foldl (processEntry srv) (st, alive) =
            rest.foldl (processEntry srv) (processEntry srv (st, alive) e) := by
          simp [List.foldl_cons]
        have hpair : processEntry srv (st, alive) e =
            ((processEntry srv (st, alive) e).1, alive ++ [e.1]) := by
          rw [← w1]
        obtain ⟨i1, i2, i3, i4⟩ := ih (processEntry srv (st, alive) e).1
          (alive ++ [e.1]) hdot2 hndr
        rw [hfold, hpair]
        refine ⟨?_, i2, ?_, ?_⟩
        · rw [i1, hvcons]
          simp [List.append_assoc]
        · intro k hk
          rw [hvcons] at hk
          have hk1 : k ≠ e.1 := fun hh => hk (hh ▸ List.mem_cons_self _ _)
          have hkr : k ∉ tcpValidKeys rest := fun hh => hk (List.mem_cons_of_mem _ hh)
          rw [i3 k hkr]
          by_cases hkdot : goContains k '.' = true
          · exact w2 k hk1 hkdot
          · have hl1 : mlookup (processEntry srv (st, alive) e).1.hosts k = none := by
              cases hl0 : mlookup (processEntry srv (st, alive) e).1.hosts k with
              | none => rfl
              | some h0 => exact absurd (hdot2 k h0 hl0) hkdot
            have hl2 : mlookup st.hosts k = none := by
              cases hl0 : mlookup st.hosts k with
              | none => rfl
              | some h0 => exact absurd (hdot k h0 hl0) hkdot
            rw [hl1, hl2]
        · intro k hk
          rw [hvcons] at hk
          have hkeq : tcpKeptKeys srv (processEntry srv (st, alive) e).1 rest =
              tcpKeptKeys srv st rest := by
            unfold tcpKeptKeys
            have hpt : ∀ e' ∈ rest,
                tcpEntryKept srv (processEntry srv (st, alive) e).1 e' =
                  tcpEntryKept srv st e' := by
              intro e' he'
              unfold tcpEntryKept
              by_cases hwf' : tcpEntryWf e' = true
              · have hne' : e'.1 ≠ e.1 := fun hh =>
                  hnotin (hh ▸ List.mem_map.mpr ⟨e', he', rfl⟩)
                rw [w2 e'.1 hne' (tcpEntryWf_key_dot e' hwf')]
              · simp [hwf']
            rw [List.filter_congr hpt]
          rcases List.mem_cons.mp hk with hk1 | hkr
          · subst hk1
            have hkr' : e.1 ∉ tcpValidKeys rest := fun hh =>
              hnotin (tcpValidKeys_subset rest e.1 hh)
            rw [i3 e.1 hkr']
            have hpk := processEntry_kept srv st alive e th tp ref port hc1 hc2
            have hkc : e.1 ∈ tcpKeptKeys srv st (e :: rest) ↔
                (tcpEntryResolves srv e = true ∨
                  (mlookup st.hosts e.1).isSome = true) := by
              unfold tcpKeptKeys
              rw [List.filter_cons]
              by_cases hkept : tcpEntryKept srv st e = true
              · rw [if_pos hkept]
                simp only [List.map_cons, List.mem_cons]
                constructor
                · intro _
                  have hkept' := hkept
                  unfold tcpEntryKept at hkept'
                  exact (Bool.or_eq_true _ _).mp
                    ((Bool.and_eq_true _ _).mp hkept').right
                · intro _
                  exact Or.inl trivial
              · rw [if_neg hkept]
                constructor
                · intro hmem
                  exfalso
                  rcases List.mem_map.mp hmem with ⟨e', he', hek⟩
                  exact hnotin (hek ▸ List.mem_map.mpr
                    ⟨e', List.mem_of_mem_filter he', rfl⟩)
                · intro hor
                  exfalso
                  apply hkept
                  unfold tcpEntryKept
                  rw [hwfe]
                  rcases hor with h1 | h1 <;> simp [h1]
            exact hpk.trans hkc.symm
          · have hne : k ≠ e.1 := fun hh =>
              hnotin (hh ▸ tcpValidKeys_subset rest k hkr)
            have hmm := i4 k hkr
            rw [hkeq] at hmm
            have hmem_iff : k ∈ tcpKeptKeys srv st (e :: rest) ↔
                k ∈ tcpKeptKeys srv st rest := by
              unfold tcpKeptKeys
              rw [List.filter_cons]
              by_cases hkept : tcpEntryKept srv st e = true
              · rw [if_pos hkept]
                simp only [List.map_cons, List.mem_cons]
                constructor
                · rintro (h1 | h1)
                  · exact absurd h1 hne
                  · exact h1
                · intro h1
                  exact Or.inr h1
              · rw [if_neg hkept]
            exact hmm.trans hmem_iff.symm
      · have heq := processEntry_not_wf srv st alive e (by simpa using hwfe)
        have hvcons : tcpValidKeys (e :: rest) = tcpValidKeys rest := by
          simp [tcpValidKeys, List.filter_cons, hwfe]
        have hkcons : tcpKeptKeys srv st (e :: rest) = tcpKeptKeys srv st rest := by
          have hknot : ¬ tcpEntryKept srv st e = true := by
            unfold tcpEntryKept
            simp [Bool.and_eq_true, hwfe]
          unfold tcpKeptKeys
          rw [List.filter_cons, if_neg hknot]
        obtain ⟨i1, i2, i3, i4⟩ := ih st alive hdot hndr
        rw [List.foldl_cons, heq, hvcons, hkcons]
        exact ⟨i1, i2, i3, i4⟩

theorem Store.close_preserves (s : Store) (i j : Nat) (h : s.closed j = true) :
    (s.close i).closed j = true := by
  unfold Store.close
  by_cases hj : j = i
  · simp [hj]
  · simpa [hj] using h

theorem tcpSweepStep_closes_persist (alive : List String) (st : TState) (k : String) :
    (∀ i, st.ts.closed i = true → (tcpSweepStep alive st k).ts.closed i = true) ∧
    (∀ i, st.proxy.closed i = true → (tcpSweepStep alive st k).proxy.closed i = true) := by
  unfold tcpSweepStep
  by_cases ha : alive.contains k = true
  · rw [if_pos ha]
    exact ⟨fun i h => h, fun i h => h⟩
  · rw [if_neg ha]
    cases hl : mlookup st.hosts k with
    | none => exact ⟨fun i h => h, fun i h => h⟩
    | some h =>
        exact ⟨fun i hh => Store.close_preserves _ _ _ hh,
               fun i hh => Store.close_preserves _ _ _ hh⟩

theorem tcpSweepStep_lookup_ne (alive : List String) (st : TState) (k n : String)
    (hne : n ≠ k) :
    mlookup (tcpSweepStep alive st k).hosts n = mlookup st.hosts n := by
  unfold tcpSweepStep
  by_cases ha : alive.contains k = true
  · rw [if_pos ha]
  · rw [if_neg ha]
    cases hl : mlookup st.hosts k with
    | none => rfl
    | some h => exact mlookup_merase_ne _ _ _ (Ne.symm hne)

theorem tcpSweepStep_alive (alive : List String) (st : TState) (k : String)
    (ha : alive.contains k = true) : tcpSweepStep alive st k = st := by
  unfold tcpSweepStep
  rw [if_pos ha]

theorem tcpSweepStep_dead_none (alive : List String) (st : TState) (k : String)
    (ha : alive.contains k = false) (hl : mlookup st.hosts k = none) :
    tcpSweepStep alive st k = st := by
  unfold tcpSweepStep
  rw [if_neg (by simpa using ha), hl]

theorem tcpSweepStep_dead_some (alive : List String) (st : TState) (k : String)
    (h : TcpHost) (ha : alive.contains k = false) (hl : mlookup st.hosts k = some h) :
    mlookup (tcpSweepStep alive st k).hosts k = none ∧
    (tcpSweepStep alive st k).ts.closed h.tsServer = true ∧
    (tcpSweepStep alive st k).proxy.closed h.proxy = true := by
  unfold tcpSweepStep
  rw [if_neg (by simpa using ha), hl]
  exact ⟨mlookup_merase_self _ _, Store.close_self _ _, Store.close_self _ _⟩

theorem tcpSweepFold_spec (alive : List String) :
    ∀ (ks : List String) (st : TState),
      (∀ i, st.ts.closed i = true →
        (ks.foldl (tcpSweepStep alive) st).ts.closed i = true) ∧
      (∀ i, st.proxy.closed i = true →
        (ks.foldl (tcpSweepStep alive) st).proxy.closed i = true) ∧
      (∀ n, n ∉ ks →
        mlookup (ks.foldl (tcpSweepStep alive) st).hosts n = mlookup st.hosts n) ∧
      (∀ n, n ∈ ks → alive.contains n = true →
        mlookup (ks.foldl (tcpSweepStep alive) st).hosts n = mlookup st.hosts n) ∧
      (∀ n, n ∈ ks → alive.contains n = false →
        mlookup (ks.foldl (tcpSweepStep alive) st).hosts n = none ∧
        (∀ h, mlookup st.hosts n = some h →
          (ks.foldl (tcpSweepStep alive) st).ts.closed h.tsServer = true ∧
          (ks.foldl (tcpSweepStep alive) st).proxy.closed h.proxy = true)) := by
  intro ks
  induction ks with
  | nil =>
      intro st
      refine ⟨fun _ h => h, fun _ h => h, fun _ _ => rfl, ?_, ?_⟩
      · intro n hn
        exact absurd hn (List.not_mem_nil n)
      · intro n hn
        exact absurd hn (List.not_mem_nil n)
  | cons k ks ih =>
      intro st
      have sts := tcpSweepStep_closes_persist alive st k
      simp only [List.foldl_cons]
      refine ⟨fun i h => (ih (tcpSweepStep alive st k)).1 i (sts.1 i h),
              fun i h => (ih (tcpSweepStep alive st k)).2.1 i (sts.2 i h), ?_, ?_, ?_⟩
      · intro n hn
        have hnk : n ≠ k := fun hh => hn (hh ▸ List.mem_cons_self _ _)
        have hnks : n ∉ ks := fun hh => hn (List.mem_cons_of_mem _ hh)
        rw [(ih (tcpSweepStep alive st k)).2.2.1 n hnks]
        exact tcpSweepStep_lookup_ne alive st k n hnk
      · intro n hn ha
        by_cases hnk : n = k
        · subst hnk
          rw [tcpSweepStep_alive alive st n ha]
          by_cases hm : n ∈ ks
          · exact (ih st).2.2.2.1 n hm ha
          · exact (ih st).2.2.1 n hm
        · have heq := tcpSweepStep_lookup_ne alive st k n hnk
          by_cases hm : n ∈ ks
          · rw [(ih (tcpSweepStep alive st k)).2.2.2.1 n hm ha]
            exact heq
          · rw [(ih (tcpSweepStep alive st k)).2.2.1 n hm]
            exact heq
      · intro n hn ha
        by_cases hnk : n = k
        · subst hnk
          cases hl : mlookup st.hosts n with
          | none =>
              rw [tcpSweepStep_dead_none alive st n ha hl]
              constructor
              · by_cases hm : n ∈ ks
                · exact ((ih st).2.2.2.2 n hm ha).1
                · rw [(ih st).2.2.1 n hm]
                  exact hl
              · intro h hh
                cases hh
          | some h =>
              obtain ⟨hnone, htsc, hpc⟩ := tcpSweepStep_dead_some alive st n h ha hl
              constructor
              · by_cases hm : n ∈ ks
                · exact ((ih (tcpSweepStep alive st n)).2.2.2.2 n hm ha).1
                · rw [(ih (tcpSweepStep alive st n)).2.2.1 n hm]
                  exact hnone
              · intro h' hh
                cases hh
                exact ⟨(ih (tcpSweepStep alive st n)).1 _ htsc,
                       (ih (tcpSweepStep alive st n)).2.1 _ hpc⟩
        · have heq := tcpSweepStep_lookup_ne alive st k n hnk
          by_cases hm : n ∈ ks
          · obtain ⟨hnone, hcl⟩ := (ih (tcpSweepStep alive st k)).2.2.2.2 n hm ha
            refine ⟨hnone, fun h hh => ?_⟩
            rw [← heq] at hh
            exact hcl h hh
          · rcases List.mem_cons.mp hn with h1 | h1
            · exact absurd h1 hnk
            · exact absurd h1 hm

theorem list_contains_iff_mem (l : List String) (x : String) :
    l.contains x = true ↔ x ∈ l := by
  constructor
  · intro h
    simpa using h
  · intro h
    simpa using h

/-- End-to-end specification of one TCP reconciliation pass over a snapshot
consisting of exactly the configured ConfigMap: the host map ends with
exactly the kept keys — keys of well-formed entries whose target resolves,
plus keys of well-formed entries that already had a registered host (an
unchanged signature is skipped before resolution; a changed one with failed
re-resolution leaves the closed host registered, the delete targeting the
wrong key) — and every pre-existing host with a key outside the well-formed
key set is removed with its route and server closed.  The hypotheses are
reachable-state facts: every key the controller ever stores is a
well-formed source spec and therefore contains a dot, and a ConfigMap's
data has unique keys. -/
theorem tcpUpdate_spec (cfg : String) (srv : SrvOracle) (st : TState) (cm : ConfigMap)
    (hname : cm.name = cfg)
    (hdot : ∀ k h, mlookup st.hosts k = some h → goContains k '.' = true)
    (hnd : (cm.data.map Prod.fst).Nodup) :
    (∀ k, (mlookup (tcpUpdate cfg srv st [cm]).hosts k).isSome = true ↔
      k ∈ tcpKeptKeys srv st cm.data) ∧
    (∀ k h, mlookup st.hosts k = some h → k ∉ tcpValidKeys cm.data →
      mlookup (tcpUpdate cfg srv st [cm]).hosts k = none ∧
      (tcpUpdate cfg srv st [cm]).ts.closed h.tsServer = true ∧
      (tcpUpdate cfg srv st [cm]).proxy.closed h.proxy = true) := by
  have hredu : tcpUpdate cfg srv st [cm] =
      (mkeys (cm.data.foldl (processEntry srv) (st, [])).1.hosts).foldl
        (tcpSweepStep (cm.data.foldl (processEntry srv) (st, [])).2)
        (cm.data.foldl (processEntry srv) (st, [])).1 := by
    unfold tcpUpdate
    simp [hname]
  obtain ⟨e1, e2, e3, e4⟩ := tcpEntries_spec srv cm.data st [] hdot hnd
  rw [List.nil_append] at e1
  obtain ⟨f1, f2, f3, f4, f5⟩ := tcpSweepFold_spec
    (cm.data.foldl (processEntry srv) (st, [])).2
    (mkeys (cm.data.foldl (processEntry srv) (st, [])).1.hosts)
    (cm.data.foldl (processEntry srv) (st, [])).1
  rw [hredu]
  constructor
  · intro k
    constructor
    · intro hk
      by_cases hkv : k ∈ tcpValidKeys cm.data
      · have hct : (cm.data.foldl (processEntry srv) (st, [])).2.contains k = true := by
          rw [list_contains_iff_mem, e1]
          exact hkv
        by_cases hks : k ∈ mkeys (cm.data.foldl (processEntry srv) (st, [])).1.hosts
        · rw [f4 k hks hct] at hk
          exact (e4 k hkv).mp hk
        · rw [f3 k hks] at hk
          exact absurd ((mem_mkeys_iff_isSome _ _).mpr hk) hks
      · exfalso
        have hnone : mlookup ((mkeys (cm.data.foldl (processEntry srv) (st, [])).1.hosts).foldl
            (tcpSweepStep (cm.data.foldl (processEntry srv) (st, [])).2)
            (cm.data.foldl (processEntry srv) (st, [])).1).hosts k = none := by
          by_cases hks : k ∈ mkeys (cm.data.foldl (processEntry srv) (st, [])).1.hosts
          · have hcf : (cm.data.foldl (processEntry srv) (st, [])).2.contains k = false := by
              rcases Bool.eq_false_or_eq_true ((cm.data.foldl (processEntry srv) (st, [])).2.contains k) with hc | hc
              · exact absurd (by rw [← e1]; exact (list_contains_iff_mem _ _).mp hc) hkv
              · exact hc
            exact (f5 k hks hcf).1
          · rw [f3 k hks]
            cases hl : mlookup (cm.data.foldl (processEntry srv) (st, [])).1.hosts k with
            | none => rfl
            | some h => exact absurd (by rw [mem_mkeys_iff_isSome, hl]; rfl) hks
        rw [hnone] at hk
        cases hk
    · intro hk
      have hkv : k ∈ tcpValidKeys cm.data := tcpKeptKeys_subset srv st cm.data k hk
      have hsome := (e4 k hkv).mpr hk
      have hks : k ∈ mkeys (cm.data.foldl (processEntry srv) (st, [])).1.hosts := by
        rw [mem_mkeys_iff_isSome]
        exact hsome
      have hct : (cm.data.foldl (processEntry srv) (st, [])).2.contains k = true := by
        rw [list_contains_iff_mem, e1]
        exact hkv
      rw [f4 k hks hct]
      exact hsome
  · intro k h hl hnv
    have hst1 : mlookup (cm.data.foldl (processEntry srv) (st, [])).1.hosts k = some h := by
      rw [e3 k hnv]
      exact hl
    have hks : k ∈ mkeys (cm.data.foldl (processEntry srv) (st, [])).1.hosts := by
      rw [mem_mkeys_iff_isSome, hst1]
      rfl
    have hcf : (cm.data.foldl (processEntry srv) (st, [])).2.contains k = false := by
      rcases Bool.eq_false_or_eq_true ((cm.data.foldl (processEntry srv) (st, [])).2.contains k) with hc | hc
      · exact absurd (by rw [← e1]; exact (list_contains_iff_mem _ _).mp hc) hnv
      · exact hc
    refine ⟨(f5 k hks hcf).1, ?_, ?_⟩
    · exact ((f5 k hks hcf).2 h hst1).1
    · exact ((f5 k hks hcf).2 h hst1).2

/-! ## Concrete fixtures for claim witnesses and counterexamples -/

/-- SRV oracle whose lookups always fail. -/
def srvErr : SrvOracle := fun _ _ => Except.error ()

/-- SRV oracle whose lookups succeed with an empty answer list. -/
def srvEmpty : SrvOracle := fun _ _ => Except.ok []

/-- Listen oracle: every listener opens. -/
def lkTrue : String → Bool := fun _ => true

/-- Listen oracle: every listener fails to open. -/
def lkFalse : String → Bool := fun _ => false

/-- Fresh HTTP controller state. -/
def emptyHState : HState := ⟨[], Store.fresh, Store.fresh⟩

/-- Fresh TCP controller state. -/
def emptyTState : TState := ⟨[], Store.fresh, Store.fresh⟩

/-- A store in which handle 0 is allocated and open. -/
def storeOne : Store := ⟨1, fun _ => false, fun _ => ""⟩

/-- A matching-class ingress at generation 1 with one host `demo` and one
Prefix path `/` to `svc:80`. -/
def ingDemo : Ingress :=
  ⟨"ing", "ns", 1, [], some "tailscale", [],
   [⟨"demo", some [⟨"/", some GoPathType.pfx, ⟨"svc", ⟨"", 80⟩⟩⟩]⟩], none⟩

/-- `ingDemo` at generation 2. -/
def ingDemoGen2 : Ingress := { ingDemo with generation := 2 }

/-- `ingDemo` with a default backend declared. -/
def ingDemoDefault : Ingress := { ingDemo with defaultBackend := some ⟨"d", ⟨"", 1⟩⟩ }

/-- A zero-valued host record (all handles 0/none, empty tables). -/
def emptyHttpHost : HttpHost := ⟨0, none, [], [], false, false, false, false, false, 0⟩

/-- A started host `demo` at generation 1 holding ts handle 0 and http
handle 0. -/
def hostDemoV1 : HttpHost := ⟨0, some 0, [], [], true, false, false, false, false, 1⟩

/-- HTTP state with the started generation-1 host `demo`. -/
def stDemoV1 : HState := ⟨[("demo", hostDemoV1)], storeOne, storeOne⟩

/-- A TCP host on handles 0/0 with an out-of-date signature. -/
def tcpHostOld : TcpHost := ⟨0, 0, "web.80: old:1"⟩

/-- TCP state with one live host under source spec `web.80`. -/
def tstWeb : TState := ⟨[("web.80", tcpHostOld)], storeOne, storeOne⟩

/-- ConfigMap changing `web.80` to a named target port that fails to
resolve. -/
def cmBadTarget : ConfigMap := ⟨"cfg", [("web.80", "svc:http")]⟩

/-- ConfigMap with the single well-formed, resolvable entry
`web.80 -> svc:80`. -/
def cmWeb : ConfigMap := ⟨"cfg", [("web.80", "svc:80")]⟩

/-! ## Claim C1 -/

/-- **C1** (code bug): HTTP reconciliation is *not* idempotent on the
routing table.  Applying the snapshot `[ingDemo]` twice from the empty
state leaves host `demo` with **two** copies of the `/` prefix entry —
`update` never clears `pathPrefixes`, it only ever `appendSorted`s into it
— while, as the claim correctly states for the other half, no identity is
recreated on the second pass (`ts.next` stays 1, so no new ts server was
allocated, and the pass succeeds).  After the first pass the prefix list
has exactly one entry, so the second pass duplicated it. -/
theorem C1_prefix_list_duplicated :
    ((httpUpdate srvErr lkTrue emptyHState [ingDemo]).map
      (fun s1 => ((mlookup s1.hosts "demo").map (fun h => h.pathPrefixes.length)).getD 0)
      = Except.ok 1) ∧
    (((httpUpdate srvErr lkTrue emptyHState [ingDemo]).bind
        (fun s1 => httpUpdate srvErr lkTrue s1 [ingDemo])).map
      (fun s2 => (((mlookup s2.hosts "demo").map (fun h => h.pathPrefixes.length)).getD 0,
                  s2.ts.next))
      = Except.ok (2, 1)) :=
  ⟨rfl, rfl⟩

/-! ## Claim C5 -/

/-- **C5** (code bug): on a signature change the old TCP host is *not*
removed from the registry before the replacement is created — the delete
targets the `tailnetHost` key (`"web"`), which is never a registry key.
With the new target spec failing to resolve, the pass ends with the old
host still registered under `web.80`, carrying its stale signature, even
though its proxy and ts server were already closed. -/
theorem C5_stale_host_left_registered :
    (let r := tcpUpdate "cfg" srvErr tstWeb [cmBadTarget]
     ((mlookup r.hosts "web.80").map TcpHost.signature,
      r.ts.closed 0, r.proxy.closed 0, r.ts.next)) =
    (some "web.80: old:1", true, true, 1) :=
  rfl

/-! ## Claim C8 -/

/-- **C8** (code bug): teardown from the sweep path is *not* safe for a
host that was created but never started.  First pass: `demo` is created but
its listener fails to open (`lkFalse`), so `httpServer` stays nil.  Second
pass with an empty snapshot sweeps it and calls `Close()` on the nil
`http.Server`, a nil-pointer panic — the embedded pass aborts with
`Except.error`. -/
theorem C8_sweep_nil_server_panics :
    (httpUpdate srvErr lkFalse emptyHState [ingDemo]).bind
      (fun s1 => httpUpdate srvErr lkFalse s1 []) = Except.error () :=
  rfl

/-! ## Claim C6 -/

/-- **C6** is corrected by this counterexample: with the integer parse
failing and the SRV lookup *succeeding with zero records*, the claim says
`resolveTargetAddress` fails; the code instead returns the address with
port `0`. -/
theorem C6_empty_srv_counterexample :
    resolveTargetAddress srvEmpty "a" "http" = some "a:0" :=
  rfl

/-- **C6** (amended): `resolveTargetAddress` returns `addr:n` directly when
the port token parses as the integer `n`; otherwise it performs the SRV
lookup and, on success, uses the first answer's port cast through `int16`
(`0` when the answer list is empty, hence no error in that case); it fails
exactly when the integer parse fails *and* the SRV lookup itself errors. -/
theorem C6_target_resolver :
    ∀ (srv : SrvOracle) (a p : String),
      (∀ n, goAtoi p = some n →
        resolveTargetAddress srv a p = some (a ++ ":" ++ toString n)) ∧
      (∀ l, goAtoi p = none → srv p a = Except.ok l →
        resolveTargetAddress srv a p =
          some (a ++ ":" ++ toString (int16OfPort (l.headD 0)))) ∧
      (∀ u, goAtoi p = none → srv p a = Except.error u →
        resolveTargetAddress srv a p = none) := by
  intro srv a p
  refine ⟨?_, ?_, ?_⟩
  · intro n hn
    unfold resolveTargetAddress
    rw [hn]
  · intro l hp hs
    unfold resolveTargetAddress
    rw [hp, hs]
  · intro u hp hs
    unfold resolveTargetAddress
    rw [hp, hs]

/-- Witness for C6 at concrete inputs: a numeric port concatenates, a named
port with an erroring lookup fails. -/
theorem C6_target_resolver_witness :
    resolveTargetAddress srvErr "a" "8080" = some ("a" ++ ":" ++ toString (8080 : Int)) ∧
    resolveTargetAddress srvErr "a" "http" = none :=
  ⟨(C6_target_resolver srvErr "a" "8080").1 8080 (by decide),
   (C6_target_resolver srvErr "a" "http").2.2 () (by decide) rfl⟩

/-! ## Claim C7 -/

/-- Host with a single Exact path `/a -> svcx:3`, built through the code's
own path-insertion logic. -/
def hostExactA : HttpHost :=
  processPath srvErr "ns" emptyHttpHost ⟨"/a", some GoPathType.exact, ⟨"svcx", ⟨"", 3⟩⟩⟩

/-- State registering `hostExactA` under `demo`. -/
def stExactA : HState := ⟨[("demo", hostExactA)], Store.fresh, Store.fresh⟩

/-- **C7** is corrected by this counterexample: for an exact match the
returned target is the bare stored backend URL — the request path is *not*
re-attached and the query string is *not* preserved (both come back
empty for request `/a?q=1`). -/
theorem C7_exact_match_drops_path_and_query :
    (getBackendUrl stExactA "demo" "/a" "q=1").map Url.path = some "" ∧
    (getBackendUrl stExactA "demo" "/a" "q=1").map Url.rawQuery = some "" :=
  ⟨rfl, rfl⟩

/-- **C7** (amended): on an exact `pathMap` hit the dispatcher rewrites the
request target to the stored backend URL *as is*; every backend URL the
path loop stores has an empty path and query, so the request path and query
are dropped for exact matches.  Only the prefix branch re-attaches the full
request path and preserves the query string. -/
theorem C7_request_rewrite :
    (∀ (st : HState) (host path q : String) (h : HttpHost) (e : HttpHostPath),
      mlookup st.hosts host = some h → mlookup h.pathMap path = some e →
      getBackendUrl st host path q = some e.backend) ∧
    (∀ (srv : SrvOracle) (ns : String) (h0 : HttpHost) (p : HTTPIngressPath)
        (k : String) (e : HttpHostPath),
      mlookup (processPath srv ns h0 p).pathMap k = some e →
      mlookup h0.pathMap k = some e ∨
        (e.backend.path = "" ∧ e.backend.rawQuery = "")) ∧
    (∀ (st : HState) (host path q : String) (h : HttpHost) (p : HttpHostPath),
      mlookup st.hosts host = some h → mlookup h.pathMap path = none →
      h.pathPrefixes.find? (fun p => goHasPrefix path p.value) = some p →
      getBackendUrl st host path q =
        some ⟨p.backend.scheme, p.backend.host, path, q⟩) := by
  refine ⟨?_, ?_, ?_⟩
  · intro st host path q h e hh he
    unfold getBackendUrl
    rw [hh]
    try simp only []
    rw [he]
  · intro srv ns h0 p k e he
    unfold processPath at he
    by_cases hm : (mlookup h0.pathMap p.path).isNone
    · rw [if_pos hm] at he
      cases hpt : p.pathType with
      | none =>
          rw [hpt] at he
          simp only [mlookup] at he
          cases he
      | some pt =>
          rw [hpt] at he
          try simp only [] at he
          revert he
          split
          · intro he
            simp only [mlookup] at he
            cases he
          · intro he
            by_cases hk : k = p.path
            · subst hk
              revert he
              split <;> intro he <;>
                [skip; rw [mlookup_minsert_self] at he] <;>
                (try rw [mlookup_minsert_self] at he) <;>
                (cases he; exact Or.inr ⟨rfl, rfl⟩)
            · revert he
              split <;> intro he <;>
                rw [mlookup_minsert_ne _ _ _ _ (fun hh => hk hh.symm)] at he <;>
                simp only [mlookup] at he <;> cases he
    · rw [if_neg hm] at he
      cases hpt : p.pathType with
      | none =>
          rw [hpt] at he
          exact Or.inl he
      | some pt =>
          rw [hpt] at he
          try simp only [] at he
          revert he
          split
          · intro he
            exact Or.inl he
          · intro he
            by_cases hk : k = p.path
            · subst hk
              revert he
              split <;> intro he <;>
                (try rw [mlookup_minsert_self] at he) <;>
                (cases he; exact Or.inr ⟨rfl, rfl⟩)
            · revert he
              split <;> intro he <;>
                rw [mlookup_minsert_ne _ _ _ _ (fun hh => hk hh.symm)] at he <;>
                exact Or.inl he
  · intro st host path q h p hh hnone hfind
    unfold getBackendUrl
    rw [hh]
    try simp only []
    rw [hnone]
    try simp only []
    rw [hfind]

/-- Witness for C7: on the code-built exact table, the exact hit returns
the stored backend, and on a prefix table the path and query are attached. -/
theorem C7_request_rewrite_witness :
    getBackendUrl stExactA "demo" "/a" "q=1" =
      some (hostExactA.pathMap.headD ("", ⟨"", false, ⟨"", "", "", ""⟩⟩)).2.backend := by
  have := C7_request_rewrite.1 stExactA "demo" "/a" "q=1" hostExactA
    (hostExactA.pathMap.headD ("", ⟨"", false, ⟨"", "", "", ""⟩⟩)).2 rfl (by decide)
  exact this

theorem cutList_none_not_contains : ∀ (l : List Char) (sep : Char),
    cutList l sep = none → l.contains sep = false := by
  intro l
  induction l with
  | nil => intro sep _; rfl
  | cons c cs ih =>
      intro sep h
      unfold cutList at h
      by_cases hc : c = sep
      · rw [if_pos hc] at h
        cases h
      · rw [if_neg hc] at h
        cases hrec : cutList cs sep with
        | some p =>
            rw [hrec] at h
            simp only [Option.map_some'] at h
            cases h
        | none =>
            simp only [List.contains_cons]
            have hcs := ih sep hrec
            simp only [hcs, Bool.or_false]
            simp [Ne.symm hc]

/-! ## Claim C10 -/

/-- Two registered hosts: the fully-qualified `demo.example` and the bare
`demo`, with distinct backends for the same path. -/
def stDotted : HState :=
  ⟨[("demo.example", { emptyHttpHost with
      pathMap := [("/x", ⟨"/x", true, ⟨"http", "b1:1", "", ""⟩⟩)] }),
    ("demo", { emptyHttpHost with
      pathMap := [("/x", ⟨"/x", true, ⟨"http", "b2:1", "", ""⟩⟩)] })],
   Store.fresh, Store.fresh⟩

/-- **C10** is corrected by this counterexample: a request addressed to the
dotted host `demo.example` does *not* fail the host lookup with 404 — the
dispatcher truncates the Host header at the first `.` and serves the
request from the *other* host `demo` (backend `b2:1`, not `b1:1`). -/
theorem C10_dotted_request_served_by_other_host :
    handleRequest stDotted "demo.example" "/x" "" = some ⟨"http", "b2:1", "", ""⟩ :=
  rfl

/-- **C10** (amended): the dispatcher truncates the request Host at the
first `.`; the truncated key never contains a `.`, so a host registered
under a dotted name is never the one consulted — such a request yields 404
exactly when no host is registered under the truncated name, and is
otherwise served by that other host. -/
theorem C10_dotted_hosts_unroutable :
    (∀ reqHost : String, goContains (beforeDot reqHost) '.' = false) ∧
    (∀ (st : HState) (reqHost p q : String),
      handleRequest st reqHost p q = getBackendUrl st (beforeDot reqHost) p q) ∧
    (∀ (k reqHost : String), goContains k '.' = true → beforeDot reqHost ≠ k) ∧
    (∀ (st : HState) (reqHost p q : String),
      mlookup st.hosts (beforeDot reqHost) = none →
      handleRequest st reqHost p q = none) := by
  have hbd : ∀ reqHost : String, goContains (beforeDot reqHost) '.' = false := by
    intro s
    unfold beforeDot
    cases hc : goCut s '.' with
    | none =>
        unfold goCut at hc
        cases hcl : cutList s.data '.' with
        | none => exact cutList_none_not_contains s.data '.' hcl
        | some pp =>
            rw [hcl] at hc
            simp only [Option.map_some'] at hc
            cases hc
    | some pp => exact goCut_fst_no_sep s '.' pp.1 pp.2 hc
  refine ⟨hbd, fun st reqHost p q => rfl, ?_, ?_⟩
  · intro k reqHost hk heq
    have h1 := hbd reqHost
    rw [heq] at h1
    rw [h1] at hk
    cases hk
  · intro st reqHost p q hl
    unfold handleRequest getBackendUrl
    rw [hl]

/-- Witness for C10 at concrete inputs: the truncation contains no dot, and
an unregistered truncated name yields 404. -/
theorem C10_dotted_hosts_unroutable_witness :
    (beforeDot "other.example" ≠ "demo.example") ∧
    handleRequest emptyHState "other.example" "/x" "" = none :=
  ⟨C10_dotted_hosts_unroutable.2.2.1 "demo.example" "other.example" (by decide),
   C10_dotted_hosts_unroutable.2.2.2 emptyHState "other.example" "/x" "" rfl⟩

/-! ## Claim C9 -/

/-- **C9** is corrected by this counterexample: an Ingress that declares a
default backend is *not* skipped — the pass still creates (and starts) a
host for its rule, only the path-table entries are omitted. -/
theorem C9_default_backend_still_creates_host :
    (httpUpdate srvErr lkTrue emptyHState [ingDemoDefault]).map
      (fun s => ((mlookup s.hosts "demo").isSome,
        ((mlookup s.hosts "demo").map
          (fun h => (h.pathMap.length, h.pathPrefixes.length))).getD (9, 9))) =
    Except.ok (true, (0, 0)) :=
  rfl

/-- Hosts of a state all carry empty path tables. -/
def TablesEmpty (l : List (String × HttpHost)) : Prop :=
  ∀ n h, mlookup l n = some h → h.pathMap = [] ∧ h.pathPrefixes = []

theorem tables_mmodify (l : List (String × HttpHost)) (host : String)
    (f : HttpHost → HttpHost)
    (hf : ∀ h, (f h).pathMap = h.pathMap ∧ (f h).pathPrefixes = h.pathPrefixes)
    (ht : TablesEmpty l) : TablesEmpty (mmodify l host f) := by
  intro n h hl
  by_cases hn : n = host
  · subst hn
    rw [mlookup_mmodify_self] at hl
    cases hl0 : mlookup l n with
    | none => rw [hl0] at hl; cases hl
    | some h0 =>
        rw [hl0] at hl
        simp only [Option.map_some'] at hl
        cases hl
        obtain ⟨hp, hpp⟩ := ht n h0 hl0
        exact ⟨(hf h0).1.trans hp, (hf h0).2.trans hpp⟩
  · rw [mlookup_mmodify_ne _ _ _ _ (fun hh => hn hh.symm)] at hl
    exact ht n h hl

theorem tables_processRule (srv : SrvOracle) (ing : Ingress) (tl : List String)
    (uf el : Bool) (st : HState) (r : IngressRule)
    (hdb : ing.defaultBackend.isSome = true)
    (ht : TablesEmpty st.hosts) :
    TablesEmpty (processRule srv ing tl uf el st r).hosts := by
  have haff : ∀ (paths : List HTTPIngressPath) (b : HState),
      TablesEmpty b.hosts → TablesEmpty (affirmStage srv ing paths b r.host).hosts := by
    intro paths b htb
    unfold affirmStage
    rw [if_pos hdb]
    exact tables_mmodify b.hosts r.host _ (fun h => ⟨rfl, rfl⟩) htb
  have hcreate : ∀ (b : HState), TablesEmpty b.hosts →
      TablesEmpty (createStage ing tl uf el b r.host).hosts := by
    intro b htb n h hl
    by_cases hn : n = r.host
    · subst hn
      obtain ⟨h', hl', _, _, _, _, hpm, hpp, _⟩ :=
        createStage_lookup_self ing tl uf el b r.host
      rw [hl] at hl'
      cases hl'
      exact ⟨hpm, hpp⟩
    · rw [createStage_lookup_ne ing tl uf el b r.host n hn] at hl
      exact htb n h hl
  have herase : ∀ (ex : HttpHost), TablesEmpty (eraseStage st r.host ex).hosts := by
    intro ex n h hl
    by_cases hn : n = r.host
    · subst hn
      rw [eraseStage_lookup_self] at hl
      cases hl
    · rw [eraseStage_lookup_ne st r.host n ex hn] at hl
      exact ht n h hl
  by_cases hv : ruleValid r = true
  · have h1 : ¬ r.host = "" := by
      intro hh
      simp [ruleValid, hh] at hv
    have h2 : goContains r.host '*' = false := by
      rcases Bool.eq_false_or_eq_true (goContains r.host '*') with hh | hh
      · simp [ruleValid, hh] at hv
      · exact hh
    obtain ⟨paths, h3⟩ : ∃ paths, r.http = some paths := by
      cases hh : r.http with
      | none => simp [ruleValid, hh] at hv
      | some paths => exact ⟨paths, rfl⟩
    cases hl : mlookup st.hosts r.host with
    | none =>
        rw [processRule_eq_create srv ing tl uf el st r paths h1 h2 h3 hl]
        exact haff paths _ (hcreate st ht)
    | some ex =>
        by_cases hgen : ex.generation < ing.generation
        · rw [processRule_eq_recreate srv ing tl uf el st r paths ex h1 h2 h3 hl hgen]
          exact haff paths _ (hcreate _ (herase ex))
        · rw [processRule_eq_norec srv ing tl uf el st r paths ex h1 h2 h3 hl hgen]
          exact haff paths st ht
  · rw [processRule_invalid srv ing tl uf el st r (by simpa using hv)]
    exact ht

theorem tables_processIngress (srv : SrvOracle) (st : HState) (ing : Ingress)
    (hdb : ing.defaultBackend.isSome = true) (ht : TablesEmpty st.hosts) :
    TablesEmpty (processIngress srv st ing).hosts := by
  unfold processIngress
  by_cases hc : ing.ingressClassName.getD "" = INGRESS_CLASS_NAME
  · rw [if_neg (by simp [hc])]
    have : ∀ (rs : List IngressRule) (b : HState), TablesEmpty b.hosts →
        TablesEmpty ((rs.foldl (processRule srv ing (ing.tls.flatten)
          (ing.labels.contains "tailscale.com/funnel")
          (ing.labels.contains "tailscale.com/logging")) b)).hosts := by
      intro rs
      induction rs with
      | nil => intro b htb; exact htb
      | cons r rest ih =>
          intro b htb
          exact ih _ (tables_processRule srv ing _ _ _ b r hdb htb)
    exact this ing.rules st ht
  · rw [if_pos (by simp [hc])]
    exact ht

theorem tables_sweepStep (lk : String → Bool) (st st₁ : HState) (k : String)
    (hok : sweepStep lk st k = Except.ok st₁) (ht : TablesEmpty st.hosts) :
    TablesEmpty st₁.hosts := by
  unfold sweepStep at hok
  cases hl : mlookup st.hosts k with
  | none =>
      rw [hl] at hok
      cases hok
      exact ht
  | some h =>
      rw [hl] at hok
      simp only [] at hok
      by_cases hd : h.deleted = true
      · rw [if_pos hd] at hok
        cases hhs : h.httpServer with
        | none => rw [hhs] at hok; cases hok
        | some hi =>
            rw [hhs] at hok
            try simp only [] at hok
            cases hok
            intro n h' hl'
            by_cases hn : n = k
            · subst hn
              rw [mlookup_merase_self] at hl'
              cases hl'
            · rw [mlookup_merase_ne _ _ _ (Ne.symm hn)] at hl'
              exact ht n h' hl'
      · rw [if_neg hd] at hok
        by_cases hs : h.started = true
        · rw [if_pos hs] at hok; cases hok; exact ht
        · rw [if_neg hs] at hok
          by_cases hlk : lk k = true
          · rw [if_neg (by simp [hlk])] at hok
            try simp only [] at hok
            cases hok
            exact tables_mmodify st.hosts k _ (fun h => ⟨rfl, rfl⟩) ht
          · rw [if_pos (by simp [hlk])] at hok
            cases hok
            exact ht

theorem tables_sweepFold (lk : String → Bool) :
    ∀ (ks : List String) (st st' : HState),
      (List.foldlM (sweepStep lk) st ks : Except Unit HState) = Except.ok st' →
      TablesEmpty st.hosts → TablesEmpty st'.hosts := by
  intro ks
  induction ks with
  | nil =>
      intro st st' hok ht
      simp only [List.foldlM_nil] at hok
      cases hok
      exact ht
  | cons k ks ih =>
      intro st st' hok ht
      simp only [List.foldlM_cons] at hok
      cases hstep : sweepStep lk st k with
      | error e => rw [hstep] at hok; cases hok
      | ok st₁ =>
          rw [hstep] at hok
          simp only [bind, Except.bind] at hok
          exact ih st₁ st' hok (tables_sweepStep lk st st₁ k hstep ht)

/-- **C9** (amended): for a snapshot consisting of an Ingress that declares
a default backend, applied to an empty registry, the pass does *not* skip
the object — a host is created for every rule passing the per-rule checks
(when the ingress class matches) — but no path-table entries are added:
every host in the resulting registry has an empty path map and prefix
list. -/
theorem C9_default_backend_rules (srv : SrvOracle) (lk : String → Bool)
    (ts http : Store) (ing : Ingress) (st' : HState)
    (hdb : ing.defaultBackend.isSome = true)
    (hok : httpUpdate srv lk ⟨[], ts, http⟩ [ing] = Except.ok st') :
    (∀ n h, mlookup st'.hosts n = some h → h.pathMap = [] ∧ h.pathPrefixes = []) ∧
    (ing.ingressClassName.getD "" = INGRESS_CLASS_NAME →
      ∀ r ∈ ing.rules, ruleValid r = true → (mlookup st'.hosts r.host).isSome = true) := by
  constructor
  · have hemp : TablesEmpty (markDeleted ([] : List (String × HttpHost))) := by
      intro n h hl
      cases hl
    have hP : TablesEmpty ((([ing] : List Ingress).foldl (processIngress srv)
        { hosts := markDeleted [], ts := ts, http := http } : HState)).hosts := by
      simp only [List.foldl_cons, List.foldl_nil]
      exact tables_processIngress srv _ ing hdb hemp
    unfold httpUpdate at hok
    exact tables_sweepFold lk _ _ st' hok hP
  · intro hcls r hr hv
    have hwf : HWF ⟨[], ts, http⟩ := by
      intro n h hl
      cases hl
    have hnd : (mkeys (⟨[], ts, http⟩ : HState).hosts).Nodup := List.nodup_nil
    have hspec := httpUpdate_spec srv lk ⟨[], ts, http⟩ [ing] st' hwf hnd hok
    rw [(hspec.1 r.host)]
    unfold httpValidHosts
    simp only [List.map_cons, List.map_nil, List.flatten]
    rw [List.append_nil]
    unfold ingressValidHosts
    rw [if_pos hcls]
    exact List.mem_map.mpr ⟨r, List.mem_filter.mpr ⟨hr, hv⟩, rfl⟩

/-- The state after applying the default-backend snapshot to the empty
registry (the pass succeeds, so the fallback arm is never taken). -/
def stC9 : HState :=
  match httpUpdate srvErr lkTrue emptyHState [ingDemoDefault] with
  | Except.ok s => s
  | Except.error _ => emptyHState

/-- Witness for C9: the concrete default-backend ingress yields a live host
`demo` whose path map and prefix list are both empty. -/
theorem C9_default_backend_rules_witness :
    (mlookup stC9.hosts "demo").map (fun h => (h.pathMap, h.pathPrefixes)) =
      some ([], []) := by
  have h := C9_default_backend_rules srvErr lkTrue Store.fresh Store.fresh
    ingDemoDefault stC9 (by decide) rfl
  have hsome := h.2 (by decide)
    ⟨"demo", some [⟨"/", some GoPathType.pfx, ⟨"svc", ⟨"", 80⟩⟩⟩]⟩
    (by decide) (by decide)
  cases hl : mlookup stC9.hosts "demo" with
  | none => rw [hl] at hsome; cases hsome
  | some hh =>
      obtain ⟨hp, hpp⟩ := h.1 "demo" hh hl
      simp [hp, hpp]

/-! ## Claim C2 -/

/-- **C2** is corrected by this counterexample: the TCP sweep lives
*inside* the matching-ConfigMap loop, so a delivered snapshot in which the
configured ConfigMap does not appear (here: no ConfigMap at all) leaves the
previous hosts untouched — the registry still holds `web.80` although the
snapshot contributes no valid key. -/
theorem C2_absent_configmap_skips_sweep :
    (mlookup (tcpUpdate "cfg" srvErr tstWeb []).hosts "web.80").isSome = true :=
  rfl

/-- **C2** (amended): at the end of every *successful* HTTP pass (from a
well-formed state) the host map holds exactly the distinct valid hostnames
of the snapshot — every pre-existing host whose key is absent is closed
and removed, and every valid hostname has a registered host.  For a TCP
pass whose snapshot consists of the configured ConfigMap (with unique
keys, and the reachable-state fact that stored keys contain a dot), the
host map ends with exactly the *kept* keys: keys of well-formed entries
whose target resolves, plus keys of well-formed entries that already had a
registered host before the pass; a well-formed key that fails to resolve
and had no prior host ends with no host, and every pre-existing host whose
key is outside the well-formed key set is closed and removed.  A TCP
snapshot without the configured ConfigMap is a no-op instead. -/
theorem C2_sweep_invariant :
    (∀ (srv : SrvOracle) (lk : String → Bool) (st : HState) (ings : List Ingress)
        (st' : HState),
      HWF st → (mkeys st.hosts).Nodup →
      httpUpdate srv lk st ings = Except.ok st' →
      (∀ n, (mlookup st'.hosts n).isSome = true ↔ n ∈ httpValidHosts ings) ∧
      (∀ n h, mlookup st.hosts n = some h → n ∉ httpValidHosts ings →
        mlookup st'.hosts n = none ∧ st'.ts.closed h.tsServer = true ∧
        (∀ i, h.httpServer = some i → st'.http.closed i = true))) ∧
    (∀ (cfg : String) (srv : SrvOracle) (st : TState) (cm : ConfigMap),
      cm.name = cfg →
      (∀ k h, mlookup st.hosts k = some h → goContains k '.' = true) →
      (cm.data.map Prod.fst).Nodup →
      (∀ k, (mlookup (tcpUpdate cfg srv st [cm]).hosts k).isSome = true ↔
        k ∈ tcpKeptKeys srv st cm.data) ∧
      (∀ k h, mlookup st.hosts k = some h → k ∉ tcpValidKeys cm.data →
        mlookup (tcpUpdate cfg srv st [cm]).hosts k = none ∧
        (tcpUpdate cfg srv st [cm]).ts.closed h.tsServer = true ∧
        (tcpUpdate cfg srv st [cm]).proxy.closed h.proxy = true)) :=
  ⟨fun srv lk st ings st' hwf hnd hok => httpUpdate_spec srv lk st ings st' hwf hnd hok,
   fun cfg srv st cm hname hdot hnd => tcpUpdate_spec cfg srv st cm hname hdot hnd⟩

/-- The state after successfully applying `[ingDemo]` to the empty HTTP
registry. -/
def stDemoApplied : HState :=
  match httpUpdate srvErr lkTrue emptyHState [ingDemo] with
  | Except.ok s => s
  | Except.error _ => emptyHState

/-- Witness for C2 at concrete inputs: applying `[ingDemo]` to the empty
HTTP registry yields a live host `demo`, and applying the configured
ConfigMap `cmWeb` to the empty TCP registry yields a live host `web.80`. -/
theorem C2_sweep_invariant_witness :
    (mlookup stDemoApplied.hosts "demo").isSome = true ∧
    (mlookup (tcpUpdate "cfg" srvErr emptyTState [cmWeb]).hosts "web.80").isSome = true := by
  constructor
  · have h := C2_sweep_invariant.1 srvErr lkTrue emptyHState [ingDemo] stDemoApplied
      (by intro n h hl; simp [emptyHState, mlookup] at hl)
      (by simp [emptyHState, mkeys]) rfl
    exact (h.1 "demo").mpr (by decide)
  · have h := C2_sweep_invariant.2 "cfg" srvErr emptyTState cmWeb rfl
      (by intro k h hl; simp [emptyTState, mlookup] at hl)
      (by decide)
    exact (h.1 "web.80").mpr (by decide)

/-! ## Claim C4 -/

theorem mem_appendSorted (l : List HttpHostPath) (e x : HttpHostPath) :
    x ∈ appendSorted l e ↔ x = e ∨ x ∈ l := by
  induction l with
  | nil => simp [appendSorted]
  | cons p rest ih =>
      unfold appendSorted
      by_cases hc : p.value.length < e.value.length
      · rw [if_pos hc]
        simp only [List.mem_cons]
      · rw [if_neg hc]
        simp only [List.mem_cons, ih]
        all_goals tauto

/-- Host with the table `{"/a" Prefix -> svcy:2, "/a/b" Exact -> svcx:1}`,
built through the code's own path-insertion logic. -/
def hostC4a : HttpHost :=
  [(⟨"/a", some GoPathType.pfx, ⟨"svcy", ⟨"", 2⟩⟩⟩ : HTTPIngressPath),
   ⟨"/a/b", some GoPathType.exact, ⟨"svcx", ⟨"", 1⟩⟩⟩].foldl
    (processPath srvErr "ns") emptyHttpHost

/-- State registering `hostC4a` under `demo`. -/
def stC4a : HState := ⟨[("demo", hostC4a)], Store.fresh, Store.fresh⟩

/-- Host with the table `{"/" Prefix -> svcy:2, "/api" Prefix -> svcz:3}`,
built through the code's own path-insertion logic. -/
def hostC4b : HttpHost :=
  [(⟨"/", some GoPathType.pfx, ⟨"svcy", ⟨"", 2⟩⟩⟩ : HTTPIngressPath),
   ⟨"/api", some GoPathType.pfx, ⟨"svcz", ⟨"", 3⟩⟩⟩].foldl
    (processPath srvErr "ns") emptyHttpHost

/-- State registering `hostC4b` under `demo`. -/
def stC4b : HState := ⟨[("demo", hostC4b)], Store.fresh, Store.fresh⟩

/-- **C4** (confirmed): route lookup tries the exact `pathMap` first and
returns that entry's target; otherwise it scans `pathPrefixes` — which
`appendSorted` keeps in descending prefix-length order — and returns the
first string-prefix match, which on such a sorted list is a longest match;
otherwise it reports not-found.  The two concrete examples: the exact entry
`/a/b -> svcx` beats the prefix `/a -> svcy` for request `/a/b`, and the
longer prefix `/api -> svcz` beats `/ -> svcy` for request `/api/v1`. -/
theorem C4_path_routing :
    (∀ (st : HState) (host path q : String) (h : HttpHost) (e : HttpHostPath),
      mlookup st.hosts host = some h → mlookup h.pathMap path = some e →
      getBackendUrl st host path q = some e.backend) ∧
    (∀ (st : HState) (host path q : String) (h : HttpHost),
      mlookup st.hosts host = some h → mlookup h.pathMap path = none →
      getBackendUrl st host path q =
        (h.pathPrefixes.find? (fun p => goHasPrefix path p.value)).map
          (fun p => ⟨p.backend.scheme, p.backend.host, path, q⟩)) ∧
    (∀ (l : List HttpHostPath) (e : HttpHostPath),
      l.Pairwise (fun a b => b.value.length ≤ a.value.length) →
      (appendSorted l e).Pairwise (fun a b => b.value.length ≤ a.value.length)) ∧
    (∀ (l : List HttpHostPath) (path : String) (p : HttpHostPath),
      l.Pairwise (fun a b => b.value.length ≤ a.value.length) →
      l.find? (fun e => goHasPrefix path e.value) = some p →
      ∀ e ∈ l, goHasPrefix path e.value = true → e.value.length ≤ p.value.length) ∧
    (getBackendUrl stC4a "demo" "/a/b" "" =
      some ⟨"http", "svcx.ns.svc.cluster.local:1", "", ""⟩) ∧
    (getBackendUrl stC4b "demo" "/api/v1" "" =
      some ⟨"http", "svcz.ns.svc.cluster.local:3", "/api/v1", ""⟩) := by
  refine ⟨?_, ?_, ?_, ?_, rfl, rfl⟩
  · intro st host path q h e hh he
    unfold getBackendUrl
    rw [hh]
    try simp only []
    rw [he]
  · intro st host path q h hh hnone
    unfold getBackendUrl
    rw [hh]
    try simp only []
    rw [hnone]
    try simp only []
    cases hf : h.pathPrefixes.find? (fun p => goHasPrefix path p.value) with
    | none => simp
    | some p => simp
  · intro l
    induction l with
    | nil =>
        intro e _
        simp [appendSorted]
    | cons p rest ih =>
        intro e hs
        rw [List.pairwise_cons] at hs
        unfold appendSorted
        by_cases hc : p.value.length < e.value.length
        · rw [if_pos hc]
          rw [List.pairwise_cons]
          constructor
          · intro x hx
            rcases List.mem_cons.mp hx with hx | hx
            · subst hx
              exact le_of_lt hc
            · exact le_trans (hs.1 x hx) (le_of_lt hc)
          · rw [List.pairwise_cons]
            exact ⟨hs.1, hs.2⟩
        · rw [if_neg hc]
          rw [List.pairwise_cons]
          constructor
          · intro x hx
            rcases (mem_appendSorted rest e x).mp hx with hx | hx
            · subst hx
              exact Nat.le_of_not_lt hc
            · exact hs.1 x hx
          · exact ih e hs.2
  · intro l path
    induction l with
    | nil =>
        intro p _ hf
        simp [List.find?] at hf
    | cons a rest ih =>
        intro p hs hf e he hme
        rw [List.pairwise_cons] at hs
        by_cases ha : goHasPrefix path a.value = true
        · rw [List.find?_cons_of_pos (p := fun (e : HttpHostPath) => goHasPrefix path e.value) _ ha] at hf
          cases hf
          rcases List.mem_cons.mp he with he | he
          · subst he
            exact le_refl _
          · exact hs.1 e he
        · rw [List.find?_cons_of_neg (p := fun (e : HttpHostPath) => goHasPrefix path e.value) _ (by simpa using ha)] at hf
          rcases List.mem_cons.mp he with he | he
          · subst he
            exact absurd hme ha
          · exact ih p hs.2 hf e he hme

/-- Witness for C4: the general exact-match clause applied at the concrete
code-built table. -/
theorem C4_path_routing_witness :
    getBackendUrl stC4a "demo" "/a/b" "q" =
      some (⟨"/a/b", true, ⟨"http", "svcx.ns.svc.cluster.local:1", "", ""⟩⟩ : HttpHostPath).backend :=
  C4_path_routing.1 stC4a "demo" "/a/b" "q" hostC4a
    ⟨"/a/b", true, ⟨"http", "svcx.ns.svc.cluster.local:1", "", ""⟩⟩
    rfl (by decide)


/-! ## Claim C3 -/

/-- Deleting the only key of a one-entry map empties it. -/
theorem merase_singleton {α : Type} (k : String) (v : α) :
    merase [(k, v)] k = [] := by
  simp [merase]

/-- `affirmStage` only modifies entries in place; the key list is unchanged. -/
theorem mkeys_affirmStage (srv : SrvOracle) (ing : Ingress)
    (paths : List HTTPIngressPath) (st : HState) (host : String) :
    mkeys (affirmStage srv ing paths st host).hosts = mkeys st.hosts := by
  unfold affirmStage
  split <;> simp [mkeys_mmodify]

/-- Creating a host in a state with an empty host map yields the singleton
key list. -/
theorem mkeys_createStage (ing : Ingress) (tl : List String) (uf el : Bool)
    (st : HState) (host : String) (hnil : st.hosts = []) :
    mkeys (createStage ing tl uf el st host).hosts = [host] := by
  unfold createStage
  rw [hnil]
  rfl

/-- A sweep-loop iteration on a surviving (non-deleted) host never touches
the ts store, never closes a previously allocated http handle, and keeps the
host registered with its generation and ts handle intact. -/
theorem sweepStep_alive_spec (lk : String → Bool) (st st' : HState) (k : String)
    (h : HttpHost) (hl : mlookup st.hosts k = some h) (hd : h.deleted = false)
    (hok : sweepStep lk st k = Except.ok st') :
    st'.ts = st.ts ∧
    (∀ i, i < st.http.next → st'.http.closed i = st.http.closed i) ∧
    ∃ h', mlookup st'.hosts k = some h' ∧ h'.generation = h.generation ∧
      h'.tsServer = h.tsServer := by
  unfold sweepStep at hok
  rw [hl] at hok
  simp only [] at hok
  rw [if_neg (by simp [hd])] at hok
  by_cases hs : h.started = true
  · rw [if_pos hs] at hok
    cases hok
    exact ⟨rfl, fun i _ => rfl, h, hl, rfl, rfl⟩
  · rw [if_neg hs] at hok
    by_cases hlk : lk k = true
    · rw [if_neg (by simp [hlk])] at hok
      try simp only [] at hok
      cases hok
      refine ⟨rfl, fun i hi => Store.alloc_closed_old _ _ _ hi, ?_⟩
      refine ⟨_, by rw [mlookup_mmodify_self, hl]; rfl, ?_, ?_⟩
      · rfl
      · rfl
    · rw [if_pos (by simp [hlk])] at hok
      cases hok
      exact ⟨rfl, fun i _ => rfl, h, hl, rfl, rfl⟩

/-- **C3** is corrected by this counterexample: replacing host `demo` on a
generation bump (1 → 2) closes the old ts server (identity), but the old
running http server is *not* closed — only `existingHost.tsServer.Close()`
is called on the generation path, so the pair is not torn down as a unit. -/
theorem C3_old_http_server_not_closed :
    (httpUpdate srvErr lkTrue stDemoV1 [ingDemoGen2]).map
      (fun s => (s.ts.closed 0, s.http.closed 0)) = Except.ok (true, false) :=
  rfl

/-- **C3** (amended): when a pass observes a strictly newer generation for a
hostname, the host's overlay identity is closed (the old ts server reports
closed) and the host is replaced by a fresh one carrying a new, distinct
identity bound to the hostname and stamped with the new generation; the old
http server handle, however, is *not* closed — its closed flag after the
pass is exactly what it was before. -/
theorem C3_generation_replacement (srv : SrvOracle) (lk : String → Bool)
    (n : String) (h : HttpHost) (ts http : Store) (ing : Ingress)
    (paths : List HTTPIngressPath) (st' : HState)
    (hcls : ing.ingressClassName = some INGRESS_CLASS_NAME)
    (hrules : ing.rules = [⟨n, some paths⟩])
    (hn1 : ¬ n = "") (hn2 : goContains n '*' = false)
    (hgen : h.generation < ing.generation)
    (hts : h.tsServer < ts.next)
    (hok : httpUpdate srv lk ⟨[(n, h)], ts, http⟩ [ing] = Except.ok st') :
    st'.ts.closed h.tsServer = true ∧
    (∀ i, h.httpServer = some i → i < http.next → st'.http.closed i = http.closed i) ∧
    (∃ h', mlookup st'.hosts n = some h' ∧ h'.generation = ing.generation ∧
      h'.tsServer ≠ h.tsServer ∧ st'.ts.closed h'.tsServer = false ∧
      st'.ts.label h'.tsServer = n) := by
  have hfold : httpUpdate srv lk ⟨[(n, h)], ts, http⟩ [ing] =
      (List.foldlM (sweepStep lk)
        (processIngress srv ⟨[(n, { h with deleted := true })], ts, http⟩ ing)
        (mkeys (processIngress srv ⟨[(n, { h with deleted := true })], ts, http⟩ ing).hosts)
        : Except Unit HState) := rfl
  have hlM : mlookup ([(n, { h with deleted := true })] :
      List (String × HttpHost)) n = some { h with deleted := true } := by
    simp [mlookup]
  have hP : processIngress srv ⟨[(n, { h with deleted := true })], ts, http⟩ ing =
      affirmStage srv ing paths
        (createStage ing ing.tls.flatten
          (ing.labels.contains "tailscale.com/funnel")
          (ing.labels.contains "tailscale.com/logging")
          (eraseStage ⟨[(n, { h with deleted := true })], ts, http⟩ n
            { h with deleted := true }) n) n := by
    unfold processIngress
    rw [hcls]
    rw [if_neg (by simp)]
    rw [hrules]
    simp only [List.foldl_cons, List.foldl_nil]
    exact processRule_eq_recreate srv ing ing.tls.flatten
      (ing.labels.contains "tailscale.com/funnel")
      (ing.labels.contains "tailscale.com/logging")
      ⟨[(n, { h with deleted := true })], ts, http⟩
      ⟨n, some paths⟩ paths { h with deleted := true } hn1 hn2 rfl hlM hgen
  obtain ⟨hC, hlC, hCdel, hCstart, hChttp, hCts0, hCpm, hCpp, hCgen⟩ :=
    createStage_lookup_self ing ing.tls.flatten
      (ing.labels.contains "tailscale.com/funnel")
      (ing.labels.contains "tailscale.com/logging")
      (eraseStage ⟨[(n, { h with deleted := true })], ts, http⟩ n
        { h with deleted := true }) n
  have hCts : hC.tsServer = ts.next := hCts0
  obtain ⟨hA, hlA, hAdel, hAts, hAhttp, hAstart, hAgen⟩ :=
    affirmStage_lookup_self srv ing paths
      (createStage ing ing.tls.flatten
        (ing.labels.contains "tailscale.com/funnel")
        (ing.labels.contains "tailscale.com/logging")
        (eraseStage ⟨[(n, { h with deleted := true })], ts, http⟩ n
          { h with deleted := true }) n) n hC hlC
  have hPreTs : (affirmStage srv ing paths
      (createStage ing ing.tls.flatten
        (ing.labels.contains "tailscale.com/funnel")
        (ing.labels.contains "tailscale.com/logging")
        (eraseStage ⟨[(n, { h with deleted := true })], ts, http⟩ n
          { h with deleted := true }) n) n).ts =
      ((ts.close h.tsServer).alloc n).1 := by
    rw [(affirmStage_stores srv ing paths _ n).1]
    exact (createStage_stores ing _ _ _ _ n).1
  have hPreHttp : (affirmStage srv ing paths
      (createStage ing ing.tls.flatten
        (ing.labels.contains "tailscale.com/funnel")
        (ing.labels.contains "tailscale.com/logging")
        (eraseStage ⟨[(n, { h with deleted := true })], ts, http⟩ n
          { h with deleted := true }) n) n).http = http := by
    rw [(affirmStage_stores srv ing paths _ n).2]
    exact (createStage_stores ing _ _ _ _ n).2
  have hkeys : mkeys (affirmStage srv ing paths
      (createStage ing ing.tls.flatten
        (ing.labels.contains "tailscale.com/funnel")
        (ing.labels.contains "tailscale.com/logging")
        (eraseStage ⟨[(n, { h with deleted := true })], ts, http⟩ n
          { h with deleted := true }) n) n).hosts = [n] := by
    rw [mkeys_affirmStage]
    exact mkeys_createStage ing _ _ _ _ n (merase_singleton n _)
  have htsOldClosed : ((ts.close h.tsServer).alloc n).1.closed h.tsServer = true := by
    rw [Store.alloc_closed_old _ n h.tsServer (by rw [Store.close_next]; exact hts)]
    exact Store.close_self _ _
  have htsNewOpen : ((ts.close h.tsServer).alloc n).1.closed ts.next = false := by
    have hx := Store.alloc_closed_self (ts.close h.tsServer) n
    rw [Store.alloc_idx] at hx
    rw [show (ts.close h.tsServer).next = ts.next from Store.close_next _ _] at hx
    exact hx
  have htsNewLabel : ((ts.close h.tsServer).alloc n).1.label ts.next = n := by
    have hx := Store.alloc_label_self (ts.close h.tsServer) n
    rw [Store.alloc_idx] at hx
    rw [show (ts.close h.tsServer).next = ts.next from Store.close_next _ _] at hx
    exact hx
  rw [hfold, hP, hkeys] at hok
  simp only [List.foldlM_cons, List.foldlM_nil] at hok
  cases hstep : sweepStep lk (affirmStage srv ing paths
      (createStage ing ing.tls.flatten
        (ing.labels.contains "tailscale.com/funnel")
        (ing.labels.contains "tailscale.com/logging")
        (eraseStage ⟨[(n, { h with deleted := true })], ts, http⟩ n
          { h with deleted := true }) n) n) n with
  | error e =>
      rw [hstep] at hok
      simp only [bind, Except.bind] at hok
      cases hok
  | ok st₁ =>
      rw [hstep] at hok
      simp only [bind, Except.bind, pure, Except.pure] at hok
      cases hok
      obtain ⟨hts_eq, hhttp_pres, h', hl', hgen', hts'⟩ :=
        sweepStep_alive_spec lk _ st' n hA hlA hAdel hstep
      refine ⟨?_, ?_, h', hl', ?_, ?_, ?_, ?_⟩
      · rw [hts_eq, hPreTs]
        exact htsOldClosed
      · intro i _ hi
        have hx := hhttp_pres i (by rw [hPreHttp]; exact hi)
        rw [hPreHttp] at hx
        exact hx
      · rw [hgen', hAgen, hCgen]
      · rw [hts', hAts, hCts]
        exact fun hh => absurd (hh ▸ hts) (lt_irrefl _)
      · rw [hts_eq, hPreTs, hts', hAts, hCts]
        exact htsNewOpen
      · rw [hts_eq, hPreTs, hts', hAts, hCts]
        exact htsNewLabel

/-- The state produced by re-applying `demo` at generation 2 over the
started generation-1 host. -/
def stC3 : HState :=
  match httpUpdate srvErr lkTrue stDemoV1 [ingDemoGen2] with
  | Except.ok s => s
  | Except.error _ => emptyHState

/-- Witness for C3 at the concrete generation bump 1 → 2 on host `demo`. -/
theorem C3_generation_replacement_witness :
    stC3.ts.closed hostDemoV1.tsServer = true ∧
    (∀ i, hostDemoV1.httpServer = some i → i < storeOne.next →
      stC3.http.closed i = storeOne.closed i) ∧
    (∃ h', mlookup stC3.hosts "demo" = some h' ∧
      h'.generation = ingDemoGen2.generation ∧
      h'.tsServer ≠ hostDemoV1.tsServer ∧ stC3.ts.closed h'.tsServer = false ∧
      stC3.ts.label h'.tsServer = "demo") :=
  C3_generation_replacement srvErr lkTrue "demo" hostDemoV1 storeOne storeOne
    ingDemoGen2 [⟨"/", some GoPathType.pfx, ⟨"svc", ⟨"", 80⟩⟩⟩] stC3
    rfl rfl (by decide) rfl (by decide) (by decide) rfl
